import Mathlib

/-!
# Upload filter of the Mattermost plugin (`server/plugin.go`)

A shallow embedding of `Plugin.FileWillBeUploaded` together with the pieces of the
Go standard library it calls (`strings.ToLower`, `strings.HasSuffix`, the UTF-8
decoder and encoder and the lower-case mapping of package `unicode`), followed by
the properties of the filter.

Go strings are sequences of bytes; they are embedded as lists of natural numbers,
every element standing for one byte.  Runes are natural numbers as well.  Loops whose
number of iterations is not the length of a list carry a bound on that number; the
lemmas `mapLoop_fuel` and `toLoop_fuel` show that the bounds used are never reached.
-/

namespace MattermostPlugin

/-- A Go `string`: a sequence of bytes. -/
abbrev GoString := List Nat

/-! ## Package `unicode/utf8` -/

/-- The rune `utf8.RuneError`, U+FFFD. -/
def RuneError : Nat := 0xFFFD

/-- The bound `utf8.RuneSelf`: bytes below it are single-byte runes. -/
def RuneSelf : Nat := 0x80

/-- The largest code point, `utf8.MaxRune`. -/
def MaxRune : Nat := 0x10FFFF

/-- Go `utf8.AppendRune` applied to an empty buffer: the UTF-8 encoding of `r`.
Surrogates and values above `MaxRune` are encoded as `RuneError`. -/
def AppendRune (r : Nat) : GoString :=
  if r ≤ 0x7F then [r % 256]
  else if r ≤ 0x7FF then [0xC0 ||| (r >>> 6) % 256, 0x80 ||| (r % 256 &&& 0x3F)]
  else if r > MaxRune ∨ (0xD800 ≤ r ∧ r ≤ 0xDFFF) then
    [0xE0 ||| (RuneError >>> 12) % 256, 0x80 ||| ((RuneError >>> 6) % 256 &&& 0x3F),
      0x80 ||| (RuneError % 256 &&& 0x3F)]
  else if r ≤ 0xFFFF then
    [0xE0 ||| (r >>> 12) % 256, 0x80 ||| ((r >>> 6) % 256 &&& 0x3F), 0x80 ||| (r % 256 &&& 0x3F)]
  else
    [0xF0 ||| (r >>> 18) % 256, 0x80 ||| ((r >>> 12) % 256 &&& 0x3F),
      0x80 ||| ((r >>> 6) % 256 &&& 0x3F), 0x80 ||| (r % 256 &&& 0x3F)]

/-- Go `utf8.RuneLen`: the number of bytes of the encoding of `r`, `-1` for a value that
is not a rune. -/
def RuneLen (r : Nat) : Int :=
  if r ≤ 0x7F then 1
  else if r ≤ 0x7FF then 2
  else if 0xD800 ≤ r ∧ r ≤ 0xDFFF then -1
  else if r ≤ 0xFFFF then 3
  else if r ≤ MaxRune then 4
  else -1

/-- A Go string literal: the UTF-8 encoding of the characters written in the source. -/
def lit (s : String) : GoString := (s.data.map fun c => AppendRune c.toNat).flatten

/-- The width of the sequence announced by the first byte `s0` (between `0xC2` and
`0xF4`): the low bits of the entry `first[s0]`. -/
def runeSize (s0 : Nat) : Nat :=
  if s0 < 0xE0 then 2 else if s0 < 0xF0 then 3 else 4

/-- The lower bound that `acceptRanges` puts on the second byte of a sequence that
starts with `s0`. -/
def acceptLo (s0 : Nat) : Nat :=
  if s0 = 0xE0 then 0xA0 else if s0 = 0xF0 then 0x90 else 0x80

/-- The upper bound that `acceptRanges` puts on the second byte of a sequence that
starts with `s0`. -/
def acceptHi (s0 : Nat) : Nat :=
  if s0 = 0xED then 0x9F else if s0 = 0xF4 then 0x8F else 0xBF

/-- Go `utf8.DecodeRuneInString`: the first rune of `s` and its width in bytes.  An empty
string gives `(RuneError, 0)`, an ill-formed or truncated sequence `(RuneError, 1)`. -/
def DecodeRuneInString : GoString → Nat × Nat
  | [] => (RuneError, 0)
  | s0 :: rest =>
    if s0 < 0x80 then (s0, 1)
    else if s0 < 0xC2 ∨ 0xF4 < s0 then (RuneError, 1)
    else if rest.length + 1 < runeSize s0 then (RuneError, 1)
    else
      match rest with
      | [] => (RuneError, 1)
      | s1 :: rest1 =>
        if s1 < acceptLo s0 ∨ acceptHi s0 < s1 then (RuneError, 1)
        else if runeSize s0 ≤ 2 then (((s0 &&& 0x1F) <<< 6) ||| (s1 &&& 0x3F), 2)
        else
          match rest1 with
          | [] => (RuneError, 1)
          | s2 :: rest2 =>
            if s2 < 0x80 ∨ 0xBF < s2 then (RuneError, 1)
            else if runeSize s0 ≤ 3 then
              (((s0 &&& 0x0F) <<< 12) ||| ((s1 &&& 0x3F) <<< 6) ||| (s2 &&& 0x3F), 3)
            else
              match rest2 with
              | [] => (RuneError, 1)
              | s3 :: _ =>
                if s3 < 0x80 ∨ 0xBF < s3 then (RuneError, 1)
                else
                  (((s0 &&& 0x07) <<< 18) ||| ((s1 &&& 0x3F) <<< 12) |||
                    ((s2 &&& 0x3F) <<< 6) ||| (s3 &&& 0x3F), 4)

/-! ## Package `unicode` -/

/-- One entry of `unicode.CaseRanges`, reduced to the column used by `ToLower`:
the code points `Lo..Hi` and their `Delta[LowerCase]`. -/
structure CaseRange where
  Lo : Nat
  Hi : Nat
  Delta : Int

/-- The marker `unicode.UpperLower` (`MaxRune + 1`) of an alternating upper/lower range. -/
def UpperLower : Int := 0x110000

/-- The ranges of `unicode.CaseRanges` from U+00C0 to U+018E. -/
def caseRanges0 : List CaseRange := [
  CaseRange.mk 0x00C0 0x00D6 32,
  CaseRange.mk 0x00D8 0x00DE 32,
  CaseRange.mk 0x0100 0x012F UpperLower,
  CaseRange.mk 0x0130 0x0130 (-199),
  CaseRange.mk 0x0132 0x0137 UpperLower,
  CaseRange.mk 0x0139 0x0148 UpperLower,
  CaseRange.mk 0x014A 0x0177 UpperLower,
  CaseRange.mk 0x0178 0x0178 (-121),
  CaseRange.mk 0x0179 0x017E UpperLower,
  CaseRange.mk 0x0181 0x0181 210,
  CaseRange.mk 0x0182 0x0185 UpperLower,
  CaseRange.mk 0x0186 0x0186 206,
  CaseRange.mk 0x0187 0x0187 1,
  CaseRange.mk 0x0189 0x018A 205,
  CaseRange.mk 0x018B 0x018B 1,
  CaseRange.mk 0x018E 0x018E 79]

/-- The ranges of `unicode.CaseRanges` from U+018F to U+01AC. -/
def caseRanges1 : List CaseRange := [
  CaseRange.mk 0x018F 0x018F 202,
  CaseRange.mk 0x0190 0x0190 203,
  CaseRange.mk 0x0191 0x0191 1,
  CaseRange.mk 0x0193 0x0193 205,
  CaseRange.mk 0x0194 0x0194 207,
  CaseRange.mk 0x0196 0x0196 211,
  CaseRange.mk 0x0197 0x0197 209,
  CaseRange.mk 0x0198 0x0198 1,
  CaseRange.mk 0x019C 0x019C 211,
  CaseRange.mk 0x019D 0x019D 213,
  CaseRange.mk 0x019F 0x019F 214,
  CaseRange.mk 0x01A0 0x01A5 UpperLower,
  CaseRange.mk 0x01A6 0x01A6 218,
  CaseRange.mk 0x01A7 0x01A7 1,
  CaseRange.mk 0x01A9 0x01A9 218,
  CaseRange.mk 0x01AC 0x01AC 1]

/-- The ranges of `unicode.CaseRanges` from U+01AE to U+01F5. -/
def caseRanges2 : List CaseRange := [
  CaseRange.mk 0x01AE 0x01AE 218,
  CaseRange.mk 0x01AF 0x01AF 1,
  CaseRange.mk 0x01B1 0x01B2 217,
  CaseRange.mk 0x01B3 0x01B6 UpperLower,
  CaseRange.mk 0x01B7 0x01B7 219,
  CaseRange.mk 0x01B8 0x01B8 1,
  CaseRange.mk 0x01BC 0x01BC 1,
  CaseRange.mk 0x01C4 0x01C4 2,
  CaseRange.mk 0x01C5 0x01C5 1,
  CaseRange.mk 0x01C7 0x01C7 2,
  CaseRange.mk 0x01C8 0x01C8 1,
  CaseRange.mk 0x01CA 0x01CA 2,
  CaseRange.mk 0x01CB 0x01DC UpperLower,
  CaseRange.mk 0x01DE 0x01EF UpperLower,
  CaseRange.mk 0x01F1 0x01F1 2,
  CaseRange.mk 0x01F2 0x01F5 UpperLower]

/-- The ranges of `unicode.CaseRanges` from U+01F6 to U+0376. -/
def caseRanges3 : List CaseRange := [
  CaseRange.mk 0x01F6 0x01F6 (-97),
  CaseRange.mk 0x01F7 0x01F7 (-56),
  CaseRange.mk 0x01F8 0x021F UpperLower,
  CaseRange.mk 0x0220 0x0220 (-130),
  CaseRange.mk 0x0222 0x0233 UpperLower,
  CaseRange.mk 0x023A 0x023A 10795,
  CaseRange.mk 0x023B 0x023B 1,
  CaseRange.mk 0x023D 0x023D (-163),
  CaseRange.mk 0x023E 0x023E 10792,
  CaseRange.mk 0x0241 0x0241 1,
  CaseRange.mk 0x0243 0x0243 (-195),
  CaseRange.mk 0x0244 0x0244 69,
  CaseRange.mk 0x0245 0x0245 71,
  CaseRange.mk 0x0246 0x024F UpperLower,
  CaseRange.mk 0x0370 0x0373 UpperLower,
  CaseRange.mk 0x0376 0x0376 1]

/-- The ranges of `unicode.CaseRanges` from U+037F to U+042F. -/
def caseRanges4 : List CaseRange := [
  CaseRange.mk 0x037F 0x037F 116,
  CaseRange.mk 0x0386 0x0386 38,
  CaseRange.mk 0x0388 0x038A 37,
  CaseRange.mk 0x038C 0x038C 64,
  CaseRange.mk 0x038E 0x038F 63,
  CaseRange.mk 0x0391 0x03A1 32,
  CaseRange.mk 0x03A3 0x03AB 32,
  CaseRange.mk 0x03CF 0x03CF 8,
  CaseRange.mk 0x03D8 0x03EF UpperLower,
  CaseRange.mk 0x03F4 0x03F4 (-60),
  CaseRange.mk 0x03F7 0x03F7 1,
  CaseRange.mk 0x03F9 0x03F9 (-7),
  CaseRange.mk 0x03FA 0x03FA 1,
  CaseRange.mk 0x03FD 0x03FF (-130),
  CaseRange.mk 0x0400 0x040F 80,
  CaseRange.mk 0x0410 0x042F 32]

/-- The ranges of `unicode.CaseRanges` from U+0460 to U+1EFF. -/
def caseRanges5 : List CaseRange := [
  CaseRange.mk 0x0460 0x0481 UpperLower,
  CaseRange.mk 0x048A 0x04BF UpperLower,
  CaseRange.mk 0x04C0 0x04C0 15,
  CaseRange.mk 0x04C1 0x04CE UpperLower,
  CaseRange.mk 0x04D0 0x052F UpperLower,
  CaseRange.mk 0x0531 0x0556 48,
  CaseRange.mk 0x10A0 0x10C5 7264,
  CaseRange.mk 0x10C7 0x10C7 7264,
  CaseRange.mk 0x10CD 0x10CD 7264,
  CaseRange.mk 0x13A0 0x13EF 38864,
  CaseRange.mk 0x13F0 0x13F5 8,
  CaseRange.mk 0x1C90 0x1CBA (-3008),
  CaseRange.mk 0x1CBD 0x1CBF (-3008),
  CaseRange.mk 0x1E00 0x1E95 UpperLower,
  CaseRange.mk 0x1E9E 0x1E9E (-7615),
  CaseRange.mk 0x1EA0 0x1EFF UpperLower]

/-- The ranges of `unicode.CaseRanges` from U+1F08 to U+1FBC. -/
def caseRanges6 : List CaseRange := [
  CaseRange.mk 0x1F08 0x1F0F (-8),
  CaseRange.mk 0x1F18 0x1F1D (-8),
  CaseRange.mk 0x1F28 0x1F2F (-8),
  CaseRange.mk 0x1F38 0x1F3F (-8),
  CaseRange.mk 0x1F48 0x1F4D (-8),
  CaseRange.mk 0x1F59 0x1F59 (-8),
  CaseRange.mk 0x1F5B 0x1F5B (-8),
  CaseRange.mk 0x1F5D 0x1F5D (-8),
  CaseRange.mk 0x1F5F 0x1F5F (-8),
  CaseRange.mk 0x1F68 0x1F6F (-8),
  CaseRange.mk 0x1F88 0x1F8F (-8),
  CaseRange.mk 0x1F98 0x1F9F (-8),
  CaseRange.mk 0x1FA8 0x1FAF (-8),
  CaseRange.mk 0x1FB8 0x1FB9 (-8),
  CaseRange.mk 0x1FBA 0x1FBB (-74),
  CaseRange.mk 0x1FBC 0x1FBC (-9)]

/-- The ranges of `unicode.CaseRanges` from U+1FC8 to U+2183. -/
def caseRanges7 : List CaseRange := [
  CaseRange.mk 0x1FC8 0x1FCB (-86),
  CaseRange.mk 0x1FCC 0x1FCC (-9),
  CaseRange.mk 0x1FD8 0x1FD9 (-8),
  CaseRange.mk 0x1FDA 0x1FDB (-100),
  CaseRange.mk 0x1FE8 0x1FE9 (-8),
  CaseRange.mk 0x1FEA 0x1FEB (-112),
  CaseRange.mk 0x1FEC 0x1FEC (-7),
  CaseRange.mk 0x1FF8 0x1FF9 (-128),
  CaseRange.mk 0x1FFA 0x1FFB (-126),
  CaseRange.mk 0x1FFC 0x1FFC (-9),
  CaseRange.mk 0x2126 0x2126 (-7517),
  CaseRange.mk 0x212A 0x212A (-8383),
  CaseRange.mk 0x212B 0x212B (-8262),
  CaseRange.mk 0x2132 0x2132 28,
  CaseRange.mk 0x2160 0x216F 16,
  CaseRange.mk 0x2183 0x2183 1]

/-- The ranges of `unicode.CaseRanges` from U+24B6 to U+2CEE. -/
def caseRanges8 : List CaseRange := [
  CaseRange.mk 0x24B6 0x24CF 26,
  CaseRange.mk 0x2C00 0x2C2F 48,
  CaseRange.mk 0x2C60 0x2C60 1,
  CaseRange.mk 0x2C62 0x2C62 (-10743),
  CaseRange.mk 0x2C63 0x2C63 (-3814),
  CaseRange.mk 0x2C64 0x2C64 (-10727),
  CaseRange.mk 0x2C67 0x2C6C UpperLower,
  CaseRange.mk 0x2C6D 0x2C6D (-10780),
  CaseRange.mk 0x2C6E 0x2C6E (-10749),
  CaseRange.mk 0x2C6F 0x2C6F (-10783),
  CaseRange.mk 0x2C70 0x2C70 (-10782),
  CaseRange.mk 0x2C72 0x2C72 1,
  CaseRange.mk 0x2C75 0x2C75 1,
  CaseRange.mk 0x2C7E 0x2C7F (-10815),
  CaseRange.mk 0x2C80 0x2CE3 UpperLower,
  CaseRange.mk 0x2CEB 0x2CEE UpperLower]

/-- The ranges of `unicode.CaseRanges` from U+2CF2 to U+A7AD. -/
def caseRanges9 : List CaseRange := [
  CaseRange.mk 0x2CF2 0x2CF2 1,
  CaseRange.mk 0xA640 0xA66D UpperLower,
  CaseRange.mk 0xA680 0xA69B UpperLower,
  CaseRange.mk 0xA722 0xA72F UpperLower,
  CaseRange.mk 0xA732 0xA76F UpperLower,
  CaseRange.mk 0xA779 0xA77C UpperLower,
  CaseRange.mk 0xA77D 0xA77D (-35332),
  CaseRange.mk 0xA77E 0xA787 UpperLower,
  CaseRange.mk 0xA78B 0xA78B 1,
  CaseRange.mk 0xA78D 0xA78D (-42280),
  CaseRange.mk 0xA790 0xA793 UpperLower,
  CaseRange.mk 0xA796 0xA7A9 UpperLower,
  CaseRange.mk 0xA7AA 0xA7AA (-42308),
  CaseRange.mk 0xA7AB 0xA7AB (-42319),
  CaseRange.mk 0xA7AC 0xA7AC (-42315),
  CaseRange.mk 0xA7AD 0xA7AD (-42305)]

/-- The ranges of `unicode.CaseRanges` from U+A7AE to U+104D3. -/
def caseRanges10 : List CaseRange := [
  CaseRange.mk 0xA7AE 0xA7AE (-42308),
  CaseRange.mk 0xA7B0 0xA7B0 (-42258),
  CaseRange.mk 0xA7B1 0xA7B1 (-42282),
  CaseRange.mk 0xA7B2 0xA7B2 (-42261),
  CaseRange.mk 0xA7B3 0xA7B3 928,
  CaseRange.mk 0xA7B4 0xA7C3 UpperLower,
  CaseRange.mk 0xA7C4 0xA7C4 (-48),
  CaseRange.mk 0xA7C5 0xA7C5 (-42307),
  CaseRange.mk 0xA7C6 0xA7C6 (-35384),
  CaseRange.mk 0xA7C7 0xA7CA UpperLower,
  CaseRange.mk 0xA7D0 0xA7D0 1,
  CaseRange.mk 0xA7D6 0xA7D9 UpperLower,
  CaseRange.mk 0xA7F5 0xA7F5 1,
  CaseRange.mk 0xFF21 0xFF3A 32,
  CaseRange.mk 0x10400 0x10427 40,
  CaseRange.mk 0x104B0 0x104D3 40]

/-- The ranges of `unicode.CaseRanges` from U+10570 to U+1E921. -/
def caseRanges11 : List CaseRange := [
  CaseRange.mk 0x10570 0x1057A 39,
  CaseRange.mk 0x1057C 0x1058A 39,
  CaseRange.mk 0x1058C 0x10592 39,
  CaseRange.mk 0x10594 0x10595 39,
  CaseRange.mk 0x10C80 0x10CB2 64,
  CaseRange.mk 0x118A0 0x118BF 32,
  CaseRange.mk 0x16E40 0x16E5F 32,
  CaseRange.mk 0x1E900 0x1E921 34]

/-- The table `unicode.CaseRanges` above ASCII, restricted to the ranges whose lower-case
delta is not zero: the simple lower-case mappings of the Unicode character database,
sorted by code point. -/
def CaseRanges : List CaseRange :=
  caseRanges0 ++ caseRanges1 ++ caseRanges2 ++ caseRanges3 ++
  caseRanges4 ++ caseRanges5 ++ caseRanges6 ++ caseRanges7 ++
  caseRanges8 ++ caseRanges9 ++ caseRanges10 ++ caseRanges11

/-- The binary search of `unicode.to` for `_case = LowerCase`, between the indices `lo`
and `hi` of `caseRange`; the first argument bounds the number of iterations. -/
def toLoop (r : Nat) (caseRange : List CaseRange) : Nat → Nat → Nat → Nat
  | 0, _, _ => r
  | fuel + 1, lo, hi =>
    if lo < hi then
      let m := (lo + hi) >>> 1
      match caseRange.get? m with
      | none => r
      | some cr =>
        if cr.Lo ≤ r ∧ r ≤ cr.Hi then
          if cr.Delta > (MaxRune : Int) then
            cr.Lo + (((r - cr.Lo) - (r - cr.Lo) % 2) ||| 1)
          else ((r : Int) + cr.Delta).toNat
        else if r < cr.Lo then toLoop r caseRange fuel lo m
        else toLoop r caseRange fuel (m + 1) hi
    else r

/-- Go `unicode.To(LowerCase, r)`. -/
def To (r : Nat) (caseRange : List CaseRange) : Nat :=
  toLoop r caseRange (caseRange.length + 1) 0 caseRange.length

/-- Go `unicode.ToLower` on a rune. -/
def unicodeToLower (r : Nat) : Nat :=
  if r ≤ 0x7F then
    if 0x41 ≤ r ∧ r ≤ 0x5A then r + (0x61 - 0x41) else r
  else To r CaseRanges

/-! ## Package `strings` -/

/-- Go `strings.HasSuffix`: `len(s) >= len(suffix) && s[len(s)-len(suffix):] == suffix`. -/
def HasSuffix (s suffix : GoString) : Bool :=
  decide (s.length ≥ suffix.length) && (s.drop (s.length - suffix.length) == suffix)

/-- The second loop of `strings.Map` over the runes of `s` (a `range` loop decodes one rune
per iteration, an ill-formed byte giving `RuneError` of width 1), writing the image of
every rune to the builder.  The first argument bounds the number of iterations. -/
def mapLoop (mapping : Nat → Nat) : Nat → GoString → GoString
  | 0, _ => []
  | fuel + 1, s =>
    match s with
    | [] => []
    | _ :: _ =>
      let (c, width) := DecodeRuneInString s
      let r := mapping c
      (if r < RuneSelf then [r % 256] else AppendRune r) ++ mapLoop mapping fuel (s.drop width)

/-- The first loop of `strings.Map`: it walks over the runes of `s` as long as the mapping
leaves them unchanged; `done` is the part `s[:i]` already walked over and the third
argument the part `s[i:]` still to read.  At the first rune that changes, or ill-formed
byte, the builder receives `s[:i]` and the image of the rune, and the second loop
finishes the work.  The result is `none` when the loop ends without writing.  The first
argument bounds the number of iterations. -/
def mapFirst (mapping : Nat → Nat) : Nat → GoString → GoString → Option GoString
  | 0, _, _ => none
  | fuel + 1, done, s =>
    match s with
    | [] => none
    | _ :: _ =>
      let (c, size) := DecodeRuneInString s
      let r := mapping c
      if r = c ∧ c ≠ RuneError then mapFirst mapping fuel (done ++ s.take size) (s.drop size)
      else if c = RuneError then
        let (c, width) := DecodeRuneInString s
        if width ≠ 1 ∧ r = c then mapFirst mapping fuel (done ++ s.take size) (s.drop size)
        else some (done ++ AppendRune r ++ mapLoop mapping fuel (s.drop width))
      else
        some (done ++ AppendRune r ++ mapLoop mapping fuel (s.drop (RuneLen c).toNat))

/-- Go `strings.Map` for a mapping that never drops a rune. -/
def Map (mapping : Nat → Nat) (s : GoString) : GoString :=
  match mapFirst mapping s.length [] s with
  | none => s
  | some b => b

/-- The first loop of `strings.ToLower`: scans `s` up to the first byte that is not ASCII
and returns `(isASCII, hasUpper)`. -/
def scanASCII : GoString → Bool → Bool × Bool
  | [], hasUpper => (true, hasUpper)
  | c :: rest, hasUpper =>
    if c ≥ RuneSelf then (false, hasUpper)
    else scanASCII rest (hasUpper || (decide (0x41 ≤ c) && decide (c ≤ 0x5A)))

/-- The second loop of `strings.ToLower`, for ASCII strings: every byte `A..Z` is
replaced by its lower-case letter, the others are copied. -/
def lowerASCII : GoString → GoString
  | [] => []
  | c :: rest => (if 0x41 ≤ c ∧ c ≤ 0x5A then c + (0x61 - 0x41) else c) :: lowerASCII rest

/-- Go `strings.ToLower`. -/
def ToLower (s : GoString) : GoString :=
  match scanASCII s false with
  | (true, hasUpper) => if !hasUpper then s else lowerASCII s
  | (false, _) => Map unicodeToLower s

/-! ## The plugin -/

/-- A pointer or an interface value that refers to an object of the host: `none` is `nil`,
`some a` the object at the address `a`. -/
abbrev Ref := Option Nat

/-- The struct `Plugin` of `plugin.go`: the fields `API` and `Driver` of the embedded
`plugin.MattermostPlugin`, then `kvstore`, `client`, `commandClient`, `backgroundJob`, the
state word of `configurationLock`, and `configuration`. -/
structure Plugin where
  API : Ref
  Driver : Ref
  kvstore : Ref
  client : Ref
  commandClient : Ref
  backgroundJob : Ref
  configurationLock : Nat
  configuration : Ref

/-- The struct `plugin.Context` of the host, passed by pointer to every hook. -/
structure Context where
  SessionId : GoString
  RequestId : GoString
  IPAddress : GoString
  AcceptLanguage : GoString
  UserAgent : GoString

/-- An `io.Reader` over the bytes of the uploaded file: the bytes of the stream and the
number of them already consumed.  A call of `Read` returns bytes from `off` on and
advances `off`. -/
structure Reader where
  data : GoString
  off : Nat

/-- An `io.Writer`: the bytes written to it so far.  A call of `Write` appends to them. -/
structure Writer where
  written : GoString

/-- The struct `model.FileInfo` of the host, with all its fields; the filter is given a
pointer to one. -/
structure FileInfo where
  Id : GoString
  CreatorId : GoString
  PostId : GoString
  ChannelId : GoString
  CreateAt : Int
  UpdateAt : Int
  DeleteAt : Int
  Path : GoString
  ThumbnailPath : GoString
  PreviewPath : GoString
  Name : GoString
  Extension : GoString
  Size : Int
  MimeType : GoString
  Width : Int
  Height : Int
  HasPreviewImage : Bool
  MiniPreview : Option GoString
  Content : GoString
  RemoteId : Option GoString
  Archived : Bool

/-- The local `allowedMimeTypes`. -/
def allowedMimeTypes : List GoString :=
  [lit "image/png", lit "image/jpeg", lit "image/svg+xml"]

/-- The local `allowedExtensions`. -/
def allowedExtensions : List GoString :=
  [lit ".png", lit ".jpg", lit ".jpeg", lit ".svg"]

/-- The message returned with a rejected upload. -/
def rejectionMessage : GoString := lit "只允許上傳 PNG, JPG, JPEG, SVG 格式的圖片檔案。"

/-- The loop `for _, mime := range allowedMimeTypes` with its `break`; the last argument
is the current value of `isAllowedMime`. -/
def mimeLoop (mimeType : GoString) : List GoString → Bool → Bool
  | [], isAllowedMime => isAllowedMime
  | mime :: rest, isAllowedMime =>
    if mimeType = mime then true else mimeLoop mimeType rest isAllowedMime

/-- The loop `for _, ext := range allowedExtensions` with its `break`; the last argument
is the current value of `isAllowedExt`. -/
def extLoop (lowerName : GoString) : List GoString → Bool → Bool
  | [], isAllowedExt => isAllowedExt
  | ext :: rest, isAllowedExt =>
    if HasSuffix lowerName ext then true else extLoop lowerName rest isAllowedExt

/-- The method `Plugin.FileWillBeUploaded`, called with a pointer `info` that is not `nil`.
The context `c`, the reader `file` and the writer `output` may be `nil`, as they are in the
tests.  The states of the reader and of the writer after the call are returned next to
the two results of the Go function: the body calls neither `Read` nor `Write`, so they are
the states before the call.  A `nil` result is `none`. -/
def FileWillBeUploaded (_p : Plugin) (_c : Option Context) (info : FileInfo)
    (file : Option Reader) (output : Option Writer) :
    (Option FileInfo × GoString) × (Option Reader × Option Writer) :=
  let isAllowedMime := mimeLoop info.MimeType allowedMimeTypes false
  let lowerName := ToLower info.Name
  let isAllowedExt := extLoop lowerName allowedExtensions false
  if !isAllowedMime && !isAllowedExt then
    ((none, rejectionMessage), (file, output))
  else
    ((some info, []), (file, output))

/-! ## Notions used to state the properties -/

/-- The value `Plugin{}` of `plugin_test.go`: every field has its zero value. -/
def zeroPlugin : Plugin :=
  { API := none, Driver := none, kvstore := none, client := none, commandClient := none,
    backgroundJob := none, configurationLock := 0, configuration := none }

/-- The value `&model.FileInfo{Name: name, MimeType: mimeType}` of `plugin_test.go`: every
other field has its zero value. -/
def newFileInfo (name mimeType : GoString) : FileInfo :=
  { Id := [], CreatorId := [], PostId := [], ChannelId := [], CreateAt := 0, UpdateAt := 0,
    DeleteAt := 0, Path := [], ThumbnailPath := [], PreviewPath := [], Name := name,
    Extension := [], Size := 0, MimeType := mimeType, Width := 0, Height := 0,
    HasPreviewImage := false, MiniPreview := none, Content := [], RemoteId := none,
    Archived := false }

/-- The string `s` with its ASCII letters `a..z` replaced by `A..Z`. -/
def upperASCII (s : GoString) : GoString :=
  s.map fun c => if 0x61 ≤ c ∧ c ≤ 0x7A then c - (0x61 - 0x41) else c

/-- The byte of the character `.`. -/
def dot : Nat := 0x2E

/-- The byte `c` with the ASCII letters `A..Z` replaced by `a..z`. -/
def foldByte (c : Nat) : Nat :=
  if 0x41 ≤ c ∧ c ≤ 0x5A then c + (0x61 - 0x41) else c

/-- The string `s` with its ASCII letters `A..Z` replaced by `a..z`; two strings with the
same image differ only in the case of ASCII letters. -/
def foldASCII (s : GoString) : GoString :=
  s.map foldByte

/-- The image of `r` under a range of the table that holds it. -/
def applyRange (cr : CaseRange) (r : Nat) : Nat :=
  if cr.Delta > (MaxRune : Int) then cr.Lo + (((r - cr.Lo) - (r - cr.Lo) % 2) ||| 1)
  else ((r : Int) + cr.Delta).toNat

/-- Whether every range of the table is not empty and starts after the range before it
ends, the first range after `prev`. -/
def sortedFrom : Nat → List CaseRange → Bool
  | _, [] => true
  | prev, cr :: rest => decide (prev < cr.Lo) && decide (cr.Lo ≤ cr.Hi) && sortedFrom cr.Hi rest

/-! ## Properties of the library functions -/

/-! ### Bytes and runes -/

/-- Bitwise or is addition when the bits of the operands do not overlap. -/
theorem lor_eq_add (k a b : Nat) (ha : a % 2 ^ k = 0) (hb : b < 2 ^ k) : a ||| b = a + b := by
  have h := Nat.mul_add_lt_is_or hb (a / 2 ^ k)
  have h2 : 2 ^ k * (a / 2 ^ k) = a := by
    have := Nat.div_add_mod a (2 ^ k)
    omega
  rw [h2] at h
  exact h.symm

/-- Masking with `0x3F` keeps the six low bits. -/
theorem and_3F (x : Nat) : x &&& 0x3F = x % 64 := Nat.and_pow_two_sub_one_eq_mod x 6

/-- Masking with `0x1F` keeps the five low bits. -/
theorem and_1F (x : Nat) : x &&& 0x1F = x % 32 := Nat.and_pow_two_sub_one_eq_mod x 5

/-- Masking with `0x0F` keeps the four low bits. -/
theorem and_0F (x : Nat) : x &&& 0x0F = x % 16 := Nat.and_pow_two_sub_one_eq_mod x 4

/-- Masking with `0x07` keeps the three low bits. -/
theorem and_07 (x : Nat) : x &&& 0x07 = x % 8 := Nat.and_pow_two_sub_one_eq_mod x 3

/-- The rune assembled from two bytes. -/
theorem rune2_eq (s0 s1 : Nat) :
    ((s0 &&& 0x1F) <<< 6) ||| (s1 &&& 0x3F) = s0 % 32 * 64 + s1 % 64 := by
  rw [and_1F, and_3F, Nat.shiftLeft_eq]
  exact lor_eq_add 6 _ _ (by norm_num) (by norm_num; omega)

/-- The rune assembled from three bytes. -/
theorem rune3_eq (s0 s1 s2 : Nat) :
    ((s0 &&& 0x0F) <<< 12) ||| ((s1 &&& 0x3F) <<< 6) ||| (s2 &&& 0x3F) =
      s0 % 16 * 4096 + s1 % 64 * 64 + s2 % 64 := by
  rw [and_0F, and_3F, and_3F, Nat.shiftLeft_eq, Nat.shiftLeft_eq]
  rw [lor_eq_add 12 (s0 % 16 * 2 ^ 12) (s1 % 64 * 2 ^ 6) (by norm_num) (by norm_num; omega)]
  rw [lor_eq_add 6 _ (s2 % 64) (by norm_num; omega) (by norm_num; omega)]

/-- The rune assembled from four bytes. -/
theorem rune4_eq (s0 s1 s2 s3 : Nat) :
    ((s0 &&& 0x07) <<< 18) ||| ((s1 &&& 0x3F) <<< 12) ||| ((s2 &&& 0x3F) <<< 6) |||
        (s3 &&& 0x3F) =
      s0 % 8 * 262144 + s1 % 64 * 4096 + s2 % 64 * 64 + s3 % 64 := by
  rw [and_07, and_3F, and_3F, and_3F, Nat.shiftLeft_eq, Nat.shiftLeft_eq, Nat.shiftLeft_eq]
  rw [lor_eq_add 18 (s0 % 8 * 2 ^ 18) (s1 % 64 * 2 ^ 12) (by norm_num) (by norm_num; omega)]
  rw [lor_eq_add 12 _ (s2 % 64 * 2 ^ 6) (by norm_num; omega) (by norm_num; omega)]
  rw [lor_eq_add 6 _ (s3 % 64) (by norm_num; omega) (by norm_num; omega)]

/-- The second byte of a sequence is never accepted below `0x80`. -/
theorem acceptLo_ge (s0 : Nat) : 0x80 ≤ acceptLo s0 := by
  unfold acceptLo; split_ifs <;> omega

/-- The second byte of a sequence is never accepted above `0xBF`. -/
theorem acceptHi_le (s0 : Nat) : acceptHi s0 ≤ 0xBF := by
  unfold acceptHi; split_ifs <;> omega

/-- The first bytes that announce each width. -/
theorem runeSize_spec (s0 : Nat) :
    (runeSize s0 = 2 → s0 < 0xE0) ∧ (runeSize s0 = 3 → 0xE0 ≤ s0 ∧ s0 < 0xF0) ∧
      (runeSize s0 = 4 → 0xF0 ≤ s0) := by
  unfold runeSize
  split_ifs <;> omega

/-- The second bytes excluded after `0xE0` and `0xF0`: the over-long encodings. -/
theorem acceptLo_spec (s0 : Nat) :
    (s0 = 0xE0 → acceptLo s0 = 0xA0) ∧ (s0 = 0xF0 → acceptLo s0 = 0x90) := by
  unfold acceptLo
  split_ifs <;> omega

/-- The second bytes excluded after `0xED` and `0xF4`: the surrogates and the values
above `MaxRune`. -/
theorem acceptHi_spec (s0 : Nat) :
    (s0 = 0xED → acceptHi s0 = 0x9F) ∧ (s0 = 0xF4 → acceptHi s0 = 0x8F) := by
  unfold acceptHi
  split_ifs <;> omega

/-- The shape of every result of the decoder on a non-empty string. -/
theorem decode_cases (s0 : Nat) (rest : GoString) :
    (s0 < 0x80 ∧ DecodeRuneInString (s0 :: rest) = (s0, 1)) ∨
    (0x80 ≤ s0 ∧ DecodeRuneInString (s0 :: rest) = (RuneError, 1)) ∨
    (∃ s1 r, rest = s1 :: r ∧ 0xC2 ≤ s0 ∧ s0 ≤ 0xF4 ∧ runeSize s0 = 2 ∧
      acceptLo s0 ≤ s1 ∧ s1 ≤ acceptHi s0 ∧
      DecodeRuneInString (s0 :: rest) = (s0 % 32 * 64 + s1 % 64, 2)) ∨
    (∃ s1 s2 r, rest = s1 :: s2 :: r ∧ 0xC2 ≤ s0 ∧ s0 ≤ 0xF4 ∧ runeSize s0 = 3 ∧
      acceptLo s0 ≤ s1 ∧ s1 ≤ acceptHi s0 ∧ 0x80 ≤ s2 ∧ s2 ≤ 0xBF ∧
      DecodeRuneInString (s0 :: rest) = (s0 % 16 * 4096 + s1 % 64 * 64 + s2 % 64, 3)) ∨
    (∃ s1 s2 s3 r, rest = s1 :: s2 :: s3 :: r ∧ 0xC2 ≤ s0 ∧ s0 ≤ 0xF4 ∧ runeSize s0 = 4 ∧
      acceptLo s0 ≤ s1 ∧ s1 ≤ acceptHi s0 ∧ 0x80 ≤ s2 ∧ s2 ≤ 0xBF ∧ 0x80 ≤ s3 ∧ s3 ≤ 0xBF ∧
      DecodeRuneInString (s0 :: rest) =
        (s0 % 8 * 262144 + s1 % 64 * 4096 + s2 % 64 * 64 + s3 % 64, 4)) := by
  by_cases h0 : s0 < 0x80
  · left; exact ⟨h0, by simp [DecodeRuneInString, h0]⟩
  right
  by_cases h1 : s0 < 0xC2 ∨ 0xF4 < s0
  · left; exact ⟨by omega, by simp [DecodeRuneInString, h0, h1]⟩
  by_cases h2 : rest.length + 1 < runeSize s0
  · left; exact ⟨by omega, by simp [DecodeRuneInString, h0, h1, h2]⟩
  have hsz : runeSize s0 = 2 ∨ runeSize s0 = 3 ∨ runeSize s0 = 4 := by
    unfold runeSize; split_ifs <;> simp
  rcases rest with _ | ⟨s1, rest1⟩
  · simp only [List.length_nil] at h2; omega
  simp only [List.length_cons] at h2
  by_cases h3 : s1 < acceptLo s0 ∨ acceptHi s0 < s1
  · left; exact ⟨by omega, by simp [DecodeRuneInString, h0, h1, h2, h3]⟩
  by_cases h4 : runeSize s0 ≤ 2
  · right; left
    refine ⟨s1, rest1, rfl, by omega, by omega, by omega, by omega, by omega, ?_⟩
    simp [DecodeRuneInString, h0, h1, h2, h3, h4, rune2_eq]
  rcases rest1 with _ | ⟨s2, rest2⟩
  · simp only [List.length_cons, List.length_nil] at h2; omega
  simp only [List.length_cons] at h2
  by_cases h5 : s2 < 0x80 ∨ 0xBF < s2
  · left; exact ⟨by omega, by simp [DecodeRuneInString, h0, h1, h2, h3, h4, h5]⟩
  by_cases h6 : runeSize s0 ≤ 3
  · right; right; left
    refine ⟨s1, s2, rest2, rfl, by omega, by omega, by omega, by omega, by omega, by omega,
      by omega, ?_⟩
    simp [DecodeRuneInString, h0, h1, h2, h3, h4, h5, h6, rune3_eq]
  rcases rest2 with _ | ⟨s3, rest3⟩
  · simp only [List.length_cons, List.length_nil] at h2; omega
  simp only [List.length_cons] at h2
  by_cases h7 : s3 < 0x80 ∨ 0xBF < s3
  · left; exact ⟨by omega, by simp [DecodeRuneInString, h0, h1, h2, h3, h4, h5, h6, h7]⟩
  right; right; right
  refine ⟨s1, s2, s3, rest3, rfl, by omega, by omega, by omega, by omega, by omega, by omega,
    by omega, by omega, by omega, ?_⟩
  simp [DecodeRuneInString, h0, h1, h2, h3, h4, h5, h6, h7, rune4_eq]

/-- The decoder consumes at least one byte of a non-empty string, and a sequence of
several bytes holds no ASCII byte: it ends before an ASCII byte that follows `y`. -/
theorem decode_width_le (s0 : Nat) (y e : GoString) (he : ∀ b ∈ e.head?, b < 0x80) :
    1 ≤ (DecodeRuneInString (s0 :: y ++ e)).2 ∧
      (DecodeRuneInString (s0 :: y ++ e)).2 ≤ (s0 :: y).length := by
  have hlo := acceptLo_ge s0
  rcases decode_cases s0 (y ++ e) with ⟨_, h⟩ | ⟨_, h⟩ | ⟨s1, r, hr, _, _, _, h1, _, h⟩ |
      ⟨s1, s2, r, hr, _, _, _, h1, _, h2, _, h⟩ |
      ⟨s1, s2, s3, r, hr, _, _, _, h1, _, h2, _, h3, _, h⟩
  · rw [List.cons_append, h]; simp
  · rw [List.cons_append, h]; simp
  · rw [List.cons_append, h]
    rcases y with _ | ⟨y1, y⟩
    · simp only [List.nil_append] at hr
      have := he s1 (by simp [hr])
      omega
    · simp
  · rw [List.cons_append, h]
    rcases y with _ | ⟨y1, _ | ⟨y2, y⟩⟩
    · simp only [List.nil_append] at hr
      have := he s1 (by simp [hr])
      omega
    · simp only [List.cons_append, List.nil_append, List.cons.injEq] at hr
      have := he s2 (by simp [hr.2])
      omega
    · simp
  · rw [List.cons_append, h]
    rcases y with _ | ⟨y1, _ | ⟨y2, _ | ⟨y3, y⟩⟩⟩
    · simp only [List.nil_append] at hr
      have := he s1 (by simp [hr])
      omega
    · simp only [List.cons_append, List.nil_append, List.cons.injEq] at hr
      have := he s2 (by simp [hr.2])
      omega
    · simp only [List.cons_append, List.nil_append, List.cons.injEq] at hr
      have := he s3 (by simp [hr.2.2])
      omega
    · simp

/-- A rune decoded from a string that starts outside ASCII lies outside ASCII. -/
theorem decode_rune_ge (s0 : Nat) (rest : GoString) (h0 : 0x80 ≤ s0) :
    0x80 ≤ (DecodeRuneInString (s0 :: rest)).1 := by
  rcases decode_cases s0 rest with ⟨hlt, _⟩ | ⟨_, h⟩ | ⟨s1, r, _, _, _, hsz, _, _, h⟩ |
      ⟨s1, s2, r, _, _, _, hsz, h1, _, _, _, h⟩ |
      ⟨s1, s2, s3, r, _, _, _, hsz, h1, _, _, _, _, _, h⟩
  · omega
  · rw [h]; decide
  · rw [h]
    unfold runeSize at hsz
    split_ifs at hsz <;> simp only [] <;> omega
  · rw [h]
    have hhi := acceptHi_le s0
    unfold runeSize at hsz
    unfold acceptLo at h1
    split_ifs at hsz h1 <;> simp only [] <;> omega
  · rw [h]
    have hhi := acceptHi_le s0
    unfold runeSize at hsz
    unfold acceptLo at h1
    split_ifs at hsz h1 <;> simp only [] <;> omega

/-- A sequence decoded to a rune other than `RuneError` is well formed. -/
theorem decode_valid (s0 : Nat) (rest : GoString)
    (h : (DecodeRuneInString (s0 :: rest)).1 ≠ RuneError) :
    s0 < 0x80 ∨ (DecodeRuneInString (s0 :: rest)).2 ≠ 1 := by
  rcases decode_cases s0 rest with ⟨hlt, _⟩ | ⟨_, hd⟩ | ⟨_, _, _, _, _, _, _, _, hd⟩ |
      ⟨_, _, _, _, _, _, _, _, _, _, _, hd⟩ | ⟨_, _, _, _, _, _, _, _, _, _, _, _, _, _, hd⟩
  · exact Or.inl hlt
  · rw [hd] at h; exact absurd rfl h
  · right; rw [hd]; simp
  · right; rw [hd]; simp
  · right; rw [hd]; simp

/-- The encoding of a rune, in terms of quotients and remainders. -/
theorem AppendRune_eq (r : Nat) :
    AppendRune r =
      if r ≤ 0x7F then [r]
      else if r ≤ 0x7FF then [0xC0 + r / 64, 0x80 + r % 64]
      else if r > MaxRune ∨ (0xD800 ≤ r ∧ r ≤ 0xDFFF) then [0xEF, 0xBF, 0xBD]
      else if r ≤ 0xFFFF then [0xE0 + r / 4096, 0x80 + r / 64 % 64, 0x80 + r % 64]
      else [0xF0 + r / 262144, 0x80 + r / 4096 % 64, 0x80 + r / 64 % 64, 0x80 + r % 64] := by
  have e6 : r >>> 6 = r / 64 := Nat.shiftRight_eq_div_pow r 6
  have e12 : r >>> 12 = r / 4096 := Nat.shiftRight_eq_div_pow r 12
  have e18 : r >>> 18 = r / 262144 := Nat.shiftRight_eq_div_pow r 18
  unfold AppendRune MaxRune
  simp only [e6, e12, e18, and_3F]
  have m0 : r % 256 % 64 = r % 64 := by omega
  have m6 : r / 64 % 256 % 64 = r / 64 % 64 := by omega
  have m12 : r / 4096 % 256 % 64 = r / 4096 % 64 := by omega
  simp only [m0, m6, m12]
  split_ifs with h1 h2 h3 h4
  · have a : r % 256 = r := by omega
    rw [a]
  · have a : r / 64 % 256 = r / 64 := by omega
    rw [a, lor_eq_add 6 0xC0 _ (by norm_num) (by norm_num; omega),
      lor_eq_add 6 0x80 _ (by norm_num) (by norm_num; omega)]
  · decide
  · have a : r / 4096 % 256 = r / 4096 := by omega
    rw [a, lor_eq_add 5 0xE0 _ (by norm_num) (by norm_num; omega),
      lor_eq_add 6 0x80 (r / 64 % 64) (by norm_num) (by norm_num; omega),
      lor_eq_add 6 0x80 (r % 64) (by norm_num) (by norm_num; omega)]
  · simp only [not_or, not_le, not_lt] at h3
    have a : r / 262144 % 256 = r / 262144 := by omega
    rw [a, lor_eq_add 4 0xF0 _ (by norm_num) (by norm_num; omega),
      lor_eq_add 6 0x80 (r / 4096 % 64) (by norm_num) (by norm_num; omega),
      lor_eq_add 6 0x80 (r / 64 % 64) (by norm_num) (by norm_num; omega),
      lor_eq_add 6 0x80 (r % 64) (by norm_num) (by norm_num; omega)]

/-- The encoding of a rune above ASCII holds no ASCII byte. -/
theorem AppendRune_bytes_ge (r : Nat) (hr : 0x80 ≤ r) : ∀ b ∈ AppendRune r, 0x80 ≤ b := by
  intro b hb
  rw [AppendRune_eq] at hb
  split_ifs at hb <;> simp only [List.mem_cons, List.mem_singleton, List.not_mem_nil,
    or_false] at hb <;> omega

/-- Encoding the rune decoded from a well-formed sequence gives the sequence back. -/
theorem AppendRune_decode (s0 : Nat) (rest : GoString)
    (h : s0 < 0x80 ∨ (DecodeRuneInString (s0 :: rest)).2 ≠ 1) :
    AppendRune (DecodeRuneInString (s0 :: rest)).1 =
      (s0 :: rest).take (DecodeRuneInString (s0 :: rest)).2 := by
  have hlo := acceptLo_ge s0
  have hhi := acceptHi_le s0
  have hsize := runeSize_spec s0
  have hlo' := acceptLo_spec s0
  have hhi' := acceptHi_spec s0
  rw [AppendRune_eq]
  unfold MaxRune
  rcases decode_cases s0 rest with ⟨hlt, hd⟩ | ⟨hge, hd⟩ |
      ⟨s1, r, rfl, _, _, hsz, h1, h1', hd⟩ |
      ⟨s1, s2, r, rfl, _, _, hsz, h1, h1', _, _, hd⟩ |
      ⟨s1, s2, s3, r, rfl, _, _, hsz, h1, h1', _, _, _, _, hd⟩
  · rw [hd]
    simp only [List.take_succ_cons, List.take_zero]
    rw [if_pos (by omega)]
  · rw [hd] at h
    rcases h with h | h
    · omega
    · exact absurd rfl h
  · rw [hd]
    simp only [List.take_succ_cons, List.take_zero]
    rw [if_neg (by omega), if_pos (by omega)]
    congr 1
    · omega
    · congr 1; omega
  · rw [hd]
    simp only [List.take_succ_cons, List.take_zero]
    rw [if_neg (by omega), if_neg (by omega), if_neg (by omega), if_pos (by omega)]
    congr 1
    · omega
    · congr 1
      · omega
      · congr 1; omega
  · rw [hd]
    simp only [List.take_succ_cons, List.take_zero]
    rw [if_neg (by omega), if_neg (by omega), if_neg (by omega), if_neg (by omega)]
    congr 1
    · omega
    · congr 1
      · omega
      · congr 1
        · omega
        · congr 1; omega

/-- A decoded rune other than `RuneError` has the length of the sequence it was decoded
from. -/
theorem RuneLen_decode (s0 : Nat) (rest : GoString)
    (h : (DecodeRuneInString (s0 :: rest)).1 ≠ RuneError) :
    RuneLen (DecodeRuneInString (s0 :: rest)).1 = (DecodeRuneInString (s0 :: rest)).2 := by
  have hlo := acceptLo_ge s0
  have hhi := acceptHi_le s0
  have hsize := runeSize_spec s0
  have hlo' := acceptLo_spec s0
  have hhi' := acceptHi_spec s0
  unfold RuneLen MaxRune
  rcases decode_cases s0 rest with ⟨hlt, hd⟩ | ⟨hge, hd⟩ |
      ⟨s1, r, rfl, _, _, hsz, h1, h1', hd⟩ |
      ⟨s1, s2, r, rfl, _, _, hsz, h1, h1', _, _, hd⟩ |
      ⟨s1, s2, s3, r, rfl, _, _, hsz, h1, h1', _, _, _, _, hd⟩
  · rw [hd]; simp only []
    rw [if_pos (by omega)]; rfl
  · rw [hd] at h
    exact absurd rfl h
  · rw [hd]; simp only []
    rw [if_neg (by omega), if_pos (by omega)]; rfl
  · rw [hd]; simp only []
    rw [if_neg (by omega), if_neg (by omega), if_neg (by omega), if_pos (by omega)]; rfl
  · rw [hd]; simp only []
    rw [if_neg (by omega), if_neg (by omega), if_neg (by omega), if_neg (by omega),
      if_pos (by omega)]; rfl

/-- Writing an ASCII rune as one byte is writing its encoding. -/
theorem writeByte_eq (r : Nat) :
    (if r < RuneSelf then [r % 256] else AppendRune r) = AppendRune r := by
  unfold RuneSelf AppendRune
  split_ifs <;> first | rfl | omega

/-! ### The loops of `Map` and of `To` -/

/-- The rune loop of `Map` never runs out of iterations: every bound from the length of
the string on gives the same output. -/
theorem mapLoop_fuel (mapping : Nat → Nat) : ∀ (n m : Nat) (s : GoString),
    s.length ≤ n → s.length ≤ m → mapLoop mapping n s = mapLoop mapping m s := by
  intro n
  induction n with
  | zero =>
    intro m s hn _
    have hs : s = [] := List.length_eq_zero.mp (by omega)
    subst hs
    cases m <;> rfl
  | succ n ih =>
    intro m s hn hm
    rcases s with _ | ⟨s0, rest⟩
    · cases m <;> rfl
    · cases m with
      | zero => simp at hm
      | succ m =>
        have hw := (decode_width_le s0 rest [] (by simp)).1
        rw [List.append_nil] at hw
        simp only [mapLoop]
        congr 1
        apply ih <;> simp only [List.length_drop, List.length_cons] at hn hm ⊢ <;> omega

/-- The first loop of `Map`, followed by the second, writes what the second loop writes
when it is run from the start of the string; when nothing is written the string is its
own image. -/
theorem mapFirst_eq (mapping : Nat → Nat) : ∀ (n : Nat) (done s : GoString), s.length ≤ n →
    (mapFirst mapping n done s).getD (done ++ s) = done ++ mapLoop mapping n s := by
  intro n
  induction n with
  | zero =>
    intro done s hn
    have hs : s = [] := List.length_eq_zero.mp (by omega)
    subst hs
    rfl
  | succ n ih =>
    intro done s hn
    rcases s with _ | ⟨s0, rest⟩
    · rfl
    have hw := decode_width_le s0 rest [] (by simp)
    rw [List.append_nil] at hw
    have hlen : ((s0 :: rest).drop (DecodeRuneInString (s0 :: rest)).2).length ≤ n := by
      simp only [List.length_drop, List.length_cons] at hn hw ⊢
      omega
    have hsplit : (s0 :: rest).take (DecodeRuneInString (s0 :: rest)).2 ++
        (s0 :: rest).drop (DecodeRuneInString (s0 :: rest)).2 = s0 :: rest :=
      List.take_append_drop _ _
    have hcont : mapping (DecodeRuneInString (s0 :: rest)).1 =
          (DecodeRuneInString (s0 :: rest)).1 →
        (s0 < 0x80 ∨ (DecodeRuneInString (s0 :: rest)).2 ≠ 1) →
        (mapFirst mapping n (done ++ (s0 :: rest).take (DecodeRuneInString (s0 :: rest)).2)
            ((s0 :: rest).drop (DecodeRuneInString (s0 :: rest)).2)).getD
            (done ++ s0 :: rest) =
          done ++ mapLoop mapping (n + 1) (s0 :: rest) := by
      intro hr hvalid
      have := ih (done ++ (s0 :: rest).take (DecodeRuneInString (s0 :: rest)).2)
        ((s0 :: rest).drop (DecodeRuneInString (s0 :: rest)).2) hlen
      rw [List.append_assoc, hsplit] at this
      rw [this]
      simp only [mapLoop]
      rw [writeByte_eq, hr, AppendRune_decode s0 rest hvalid, List.append_assoc]
    simp only [mapFirst]
    by_cases hA : mapping (DecodeRuneInString (s0 :: rest)).1 =
        (DecodeRuneInString (s0 :: rest)).1 ∧ (DecodeRuneInString (s0 :: rest)).1 ≠ RuneError
    · rw [if_pos hA]
      exact hcont hA.1 (decode_valid s0 rest hA.2)
    · rw [if_neg hA]
      by_cases hE : (DecodeRuneInString (s0 :: rest)).1 = RuneError
      · rw [if_pos hE]
        by_cases hB : (DecodeRuneInString (s0 :: rest)).2 ≠ 1 ∧
            mapping (DecodeRuneInString (s0 :: rest)).1 = (DecodeRuneInString (s0 :: rest)).1
        · rw [if_pos hB]
          exact hcont hB.2 (Or.inr hB.1)
        · rw [if_neg hB]
          simp only [Option.getD_some, mapLoop]
          rw [writeByte_eq, List.append_assoc]
      · rw [if_neg hE]
        have hlen' := RuneLen_decode s0 rest hE
        simp only [Option.getD_some, mapLoop]
        rw [writeByte_eq, List.append_assoc, hlen', Int.toNat_ofNat]

/-- Go `strings.Map` writes, for every rune of the string, the image of the rune. -/
theorem Map_eq (mapping : Nat → Nat) (s : GoString) :
    Map mapping s = mapLoop mapping s.length s := by
  have h := mapFirst_eq mapping s.length [] s (Nat.le_refl _)
  simp only [List.nil_append] at h
  unfold Map
  rw [← h]
  cases mapFirst mapping s.length [] s <;> rfl

/-- The binary search never runs out of iterations: every bound above the width of the
interval gives the same result. -/
theorem toLoop_fuel (r : Nat) (caseRange : List CaseRange) :
    ∀ (n m lo hi : Nat), hi - lo < n → hi - lo < m →
      toLoop r caseRange n lo hi = toLoop r caseRange m lo hi := by
  intro n
  induction n with
  | zero => intro m lo hi hn _; omega
  | succ n ih =>
    intro m lo hi hn hm
    cases m with
    | zero => omega
    | succ m =>
      unfold toLoop
      by_cases hlt : lo < hi
      · simp only [hlt, if_true]
        have hmid : (lo + hi) >>> 1 = (lo + hi) / 2 := Nat.shiftRight_eq_div_pow _ 1
        rw [hmid]
        rcases caseRange.get? ((lo + hi) / 2) with _ | cr
        · rfl
        · simp only []
          split_ifs
          · rfl
          · rfl
          · exact ih m lo _ (by omega) (by omega)
          · exact ih m _ hi (by omega) (by omega)
      · simp only [hlt, if_false]

/-- The binary search returns its argument or the image of its argument under a range of
the table that holds it. -/
theorem toLoop_cases (r : Nat) (caseRange : List CaseRange) :
    ∀ (fuel lo hi : Nat),
      toLoop r caseRange fuel lo hi = r ∨
        ∃ cr ∈ caseRange, cr.Lo ≤ r ∧ r ≤ cr.Hi ∧
          toLoop r caseRange fuel lo hi =
            if cr.Delta > (MaxRune : Int) then
              cr.Lo + (((r - cr.Lo) - (r - cr.Lo) % 2) ||| 1)
            else ((r : Int) + cr.Delta).toNat := by
  intro fuel
  induction fuel with
  | zero => intro lo hi; left; rfl
  | succ fuel ih =>
    intro lo hi
    unfold toLoop
    by_cases hlt : lo < hi
    · simp only [hlt, if_true]
      rcases hget : caseRange.get? ((lo + hi) >>> 1) with _ | cr
      · left; rfl
      · simp only []
        by_cases hin : cr.Lo ≤ r ∧ r ≤ cr.Hi
        · right
          refine ⟨cr, List.get?_mem hget, hin.1, hin.2, ?_⟩
          simp only [hin, and_self, if_true]
        · simp only [hin, if_false]
          split_ifs
          · exact ih _ _
          · exact ih _ _
    · left; simp only [hlt, if_false]

set_option maxRecDepth 100000 in
/-- The table of lower-case ranges is sorted. -/
theorem CaseRanges_sorted : sortedFrom 0 CaseRanges = true := by
  decide

/-- Every range of a sorted table starts after the bound and is not empty. -/
theorem sortedFrom_lo : ∀ (l : List CaseRange) (prev j : Nat) (b : CaseRange),
    sortedFrom prev l = true → l.get? j = some b → prev < b.Lo ∧ b.Lo ≤ b.Hi := by
  intro l
  induction l with
  | nil => intro prev j b _ hj; simp at hj
  | cons cr rest ih =>
    intro prev j b hs hj
    simp only [sortedFrom, Bool.and_eq_true, decide_eq_true_eq] at hs
    cases j with
    | zero =>
      simp only [List.get?_cons_zero, Option.some.injEq] at hj
      subst hj
      exact hs.1
    | succ j =>
      have := ih cr.Hi j b hs.2 (by simpa using hj)
      omega

/-- In a sorted table the ranges at two indices in increasing order are apart. -/
theorem sortedFrom_lt : ∀ (l : List CaseRange) (prev i j : Nat) (a b : CaseRange),
    sortedFrom prev l = true → l.get? i = some a → l.get? j = some b → i < j →
      a.Hi < b.Lo := by
  intro l
  induction l with
  | nil => intro prev i j a b _ hi; simp at hi
  | cons cr rest ih =>
    intro prev i j a b hs hi hj hij
    simp only [sortedFrom, Bool.and_eq_true, decide_eq_true_eq] at hs
    cases j with
    | zero => omega
    | succ j =>
      cases i with
      | zero =>
        simp only [List.get?_cons_zero, Option.some.injEq] at hi
        subst hi
        exact (sortedFrom_lo rest _ j b hs.2 (by simpa using hj)).1
      | succ i =>
        exact ih cr.Hi i j a b hs.2 (by simpa using hi) (by simpa using hj) (by omega)

/-- In a sorted table the binary search finds the range that holds `r`. -/
theorem toLoop_complete (r : Nat) (caseRange : List CaseRange) (prev : Nat)
    (hs : sortedFrom prev caseRange = true)
    (k : Nat) (cr : CaseRange) (hk : caseRange.get? k = some cr)
    (hlo : cr.Lo ≤ r) (hhi : r ≤ cr.Hi) :
    ∀ (fuel lo hi : Nat), hi - lo < fuel → lo ≤ k → k < hi → hi ≤ caseRange.length →
      toLoop r caseRange fuel lo hi = applyRange cr r := by
  intro fuel
  induction fuel with
  | zero => intro lo hi hf; omega
  | succ fuel ih =>
    intro lo hi hf hlk hkh hlen
    unfold toLoop
    have hlt : lo < hi := by omega
    have hmid : (lo + hi) >>> 1 = (lo + hi) / 2 := Nat.shiftRight_eq_div_pow _ 1
    simp only [hlt, if_true, hmid]
    rcases hgm : caseRange.get? ((lo + hi) / 2) with _ | cm
    · have := List.get?_eq_none.mp hgm
      omega
    simp only []
    by_cases hin : cm.Lo ≤ r ∧ r ≤ cm.Hi
    · have hmk : (lo + hi) / 2 = k := by
        rcases Nat.lt_trichotomy ((lo + hi) / 2) k with h | h | h
        · have := sortedFrom_lt _ _ _ _ _ _ hs hgm hk h
          omega
        · exact h
        · have := sortedFrom_lt _ _ _ _ _ _ hs hk hgm h
          omega
      rw [hmk, hk] at hgm
      obtain rfl := Option.some.inj hgm
      rw [if_pos hin]
      rfl
    · rw [if_neg hin]
      by_cases hless : r < cm.Lo
      · rw [if_pos hless]
        have hkm : k < (lo + hi) / 2 := by
          by_contra hc
          rcases Nat.lt_or_eq_of_le (Nat.le_of_not_lt hc) with h | h
          · have := sortedFrom_lt _ _ _ _ _ _ hs hgm hk h
            have := (sortedFrom_lo _ _ _ _ hs hgm).2
            omega
          · rw [h, hk] at hgm
            obtain rfl := Option.some.inj hgm
            omega
        exact ih lo _ (by omega) hlk hkm (by omega)
      · rw [if_neg hless]
        have hkm : (lo + hi) / 2 < k := by
          by_contra hc
          rcases Nat.lt_or_eq_of_le (Nat.le_of_not_lt hc) with h | h
          · have := sortedFrom_lt _ _ _ _ _ _ hs hk hgm h
            omega
          · rw [← h, hk] at hgm
            obtain rfl := Option.some.inj hgm
            exact hin ⟨hlo, hhi⟩
        exact ih _ hi (by omega) (by omega) hkh hlen

/-- The search of `To` in the table of lower-case ranges finds the range that holds `r`:
`To` maps every rune of a range by the delta of the range, and by `toLoop_cases` every
other rune to itself. -/
theorem To_complete (r : Nat) (cr : CaseRange) (hmem : cr ∈ CaseRanges)
    (hlo : cr.Lo ≤ r) (hhi : r ≤ cr.Hi) : To r CaseRanges = applyRange cr r := by
  obtain ⟨k, hk⟩ := List.get?_of_mem hmem
  have hklt : k < CaseRanges.length := by
    by_contra hc
    rw [List.get?_eq_none.mpr (by omega)] at hk
    cases hk
  exact toLoop_complete r CaseRanges 0 CaseRanges_sorted k cr hk hlo hhi _ 0 _ (by omega)
    (Nat.zero_le _) hklt (Nat.le_refl _)

set_option maxRecDepth 100000 in
/-- Every range of the table starts above ASCII and is mapped onto the letter `a` or
above. -/
theorem CaseRanges_bounds : ∀ e ∈ CaseRanges,
    0x80 ≤ e.Lo ∧ (e.Delta ≤ (MaxRune : Int) → (0x61 : Int) ≤ (e.Lo : Int) + e.Delta) := by
  decide

/-- A rune above ASCII is mapped by `To` onto the letter `a` or above. -/
theorem To_ge (r : Nat) (hr : 0x80 ≤ r) : 0x61 ≤ To r CaseRanges := by
  unfold To
  rcases toLoop_cases r CaseRanges (CaseRanges.length + 1) 0 CaseRanges.length with h |
      ⟨cr, hmem, hlo, _, h⟩
  · rw [h]; omega
  · rw [h]
    have hb := CaseRanges_bounds cr hmem
    split_ifs with hd
    · have := hb.1
      omega
    · have := hb.2 (by omega)
      omega

/-- The image of a rune under `unicode.ToLower` is a dot only for the dot. -/
theorem unicodeToLower_ne_dot (c : Nat) (hc : c ≠ dot) : unicodeToLower c ≠ dot := by
  unfold dot at hc ⊢
  unfold unicodeToLower
  split_ifs with h1 h2
  · omega
  · exact hc
  · have := To_ge c (by omega)
    omega

/-- On ASCII runes `unicode.ToLower` folds the letters `A..Z`. -/
theorem unicodeToLower_ascii (c : Nat) (h : c < 0x80) : unicodeToLower c = foldByte c := by
  unfold unicodeToLower foldByte
  rw [if_pos (by omega)]

/-! ### `ToLower` -/

/-- Two bytes with the same folded image are equal or both ASCII. -/
theorem foldByte_cases (x y : Nat) (h : foldByte x = foldByte y) :
    x = y ∨ (x < 0x80 ∧ y < 0x80) := by
  unfold foldByte at h
  split_ifs at h <;> omega

/-- The decoder does not tell apart two strings that start with the same byte outside
ASCII and differ only in the case of ASCII letters. -/
theorem decode_congr (s0 : Nat) (ta tb : GoString) (h0 : ¬ s0 < 0x80)
    (h : foldASCII ta = foldASCII tb) :
    DecodeRuneInString (s0 :: ta) = DecodeRuneInString (s0 :: tb) := by
  have hlen : ta.length = tb.length := by
    have := congrArg List.length h
    simpa [foldASCII] using this
  have hlo := acceptLo_ge s0
  by_cases h1 : s0 < 0xC2 ∨ 0xF4 < s0
  · simp [DecodeRuneInString, h0, h1]
  by_cases h2 : ta.length + 1 < runeSize s0
  · have h2' : tb.length + 1 < runeSize s0 := hlen ▸ h2
    simp [DecodeRuneInString, h0, h1, h2, h2']
  have h2' : ¬ tb.length + 1 < runeSize s0 := hlen ▸ h2
  rcases ta with _ | ⟨a1, ta1⟩ <;> rcases tb with _ | ⟨b1, tb1⟩ <;>
    simp only [foldASCII, List.map_cons, List.map_nil, List.cons.injEq, reduceCtorEq] at h
  · rfl
  obtain ⟨hb1, h⟩ := h
  simp only [List.length_cons] at h2 h2'
  rcases foldByte_cases a1 b1 hb1 with rfl | ⟨ha, hb⟩
  swap
  · have h3 : a1 < acceptLo s0 ∨ acceptHi s0 < a1 := Or.inl (by omega)
    have h3' : b1 < acceptLo s0 ∨ acceptHi s0 < b1 := Or.inl (by omega)
    simp [DecodeRuneInString, h0, h1, h2, h2', h3, h3']
  by_cases h3 : a1 < acceptLo s0 ∨ acceptHi s0 < a1
  · simp [DecodeRuneInString, h0, h1, h2, h2', h3]
  by_cases h4 : runeSize s0 ≤ 2
  · simp [DecodeRuneInString, h0, h1, h2, h2', h3, h4]
  rcases ta1 with _ | ⟨a2, ta2⟩ <;> rcases tb1 with _ | ⟨b2, tb2⟩ <;>
    simp only [List.map_cons, List.map_nil, List.cons.injEq, reduceCtorEq] at h
  · rfl
  obtain ⟨hb2, h⟩ := h
  simp only [List.length_cons] at h2 h2'
  rcases foldByte_cases a2 b2 hb2 with rfl | ⟨ha, hb⟩
  swap
  · have h5 : a2 < 0x80 ∨ 0xBF < a2 := Or.inl ha
    have h5' : b2 < 0x80 ∨ 0xBF < b2 := Or.inl hb
    simp [DecodeRuneInString, h0, h1, h2, h2', h3, h4, h5, h5']
  by_cases h5 : a2 < 0x80 ∨ 0xBF < a2
  · simp [DecodeRuneInString, h0, h1, h2, h2', h3, h4, h5]
  by_cases h6 : runeSize s0 ≤ 3
  · simp [DecodeRuneInString, h0, h1, h2, h2', h3, h4, h5, h6]
  rcases ta2 with _ | ⟨a3, ta3⟩ <;> rcases tb2 with _ | ⟨b3, tb3⟩ <;>
    simp only [List.map_cons, List.map_nil, List.cons.injEq, reduceCtorEq] at h
  · rfl
  obtain ⟨hb3, h⟩ := h
  simp only [List.length_cons] at h2 h2'
  rcases foldByte_cases a3 b3 hb3 with rfl | ⟨ha, hb⟩
  swap
  · have h7 : a3 < 0x80 ∨ 0xBF < a3 := Or.inl ha
    have h7' : b3 < 0x80 ∨ 0xBF < b3 := Or.inl hb
    simp [DecodeRuneInString, h0, h1, h2, h2', h3, h4, h5, h6, h7, h7']
  simp [DecodeRuneInString, h0, h1, h2, h2', h3, h4, h5, h6]

/-- The rune loop of `Map` gives the same output on two strings that differ only in the
case of ASCII letters. -/
theorem mapLoop_congr : ∀ (n : Nat) (a b : GoString), foldASCII a = foldASCII b →
    mapLoop unicodeToLower n a = mapLoop unicodeToLower n b := by
  intro n
  induction n with
  | zero => intro a b _; rfl
  | succ n ih =>
    intro a b h
    rcases a with _ | ⟨a0, ta⟩ <;> rcases b with _ | ⟨b0, tb⟩ <;>
      simp only [foldASCII, List.map_cons, List.map_nil, List.cons.injEq, reduceCtorEq] at h
    · rfl
    obtain ⟨h0, ht⟩ := h
    have hdrop : ∀ w, foldASCII ((a0 :: ta).drop w) = foldASCII ((b0 :: tb).drop w) := by
      intro w
      simp only [foldASCII, List.map_drop, List.map_cons, h0, ht]
    rcases foldByte_cases a0 b0 h0 with rfl | ⟨ha, hb⟩
    · by_cases hlt : a0 < 0x80
      · simp only [mapLoop, decode_cases, DecodeRuneInString, hlt, if_true]
        rw [ih _ _ (hdrop 1)]
      · simp only [mapLoop]
        rw [decode_congr a0 ta tb hlt ht, ih _ _ (hdrop _)]
    · simp only [mapLoop, DecodeRuneInString, ha, hb, if_true]
      rw [unicodeToLower_ascii a0 ha, unicodeToLower_ascii b0 hb, h0, ih _ _ (hdrop 1)]

/-- The second loop of `ToLower` folds every byte. -/
theorem lowerASCII_eq_fold (s : GoString) : lowerASCII s = foldASCII s := by
  induction s with
  | nil => rfl
  | cons c rest ih => simp only [lowerASCII, foldASCII, List.map_cons, foldByte, ih]

/-- The first component of the scan tells whether all bytes are ASCII. -/
theorem scanASCII_fst (s : GoString) : ∀ acc : Bool,
    (scanASCII s acc).1 = s.all (fun c => decide (c < 0x80)) := by
  induction s with
  | nil => intro acc; rfl
  | cons c rest ih =>
    intro acc
    unfold scanASCII
    by_cases hc : c ≥ RuneSelf
    · have : ¬ c < 0x80 := by unfold RuneSelf at hc; omega
      simp [hc, this]
    · have : c < 0x80 := by unfold RuneSelf at hc; omega
      simp [hc, this, ih]

/-- On an ASCII string the second component of the scan tells whether an upper-case
letter was met. -/
theorem scanASCII_snd (s : GoString) : ∀ acc : Bool, (scanASCII s acc).1 = true →
    (scanASCII s acc).2 =
      (acc || s.any (fun c => decide (0x41 ≤ c) && decide (c ≤ 0x5A))) := by
  induction s with
  | nil => intro acc _; simp [scanASCII]
  | cons c rest ih =>
    intro acc h1
    unfold scanASCII at h1 ⊢
    by_cases hc : c ≥ RuneSelf
    · simp [hc] at h1
    · simp only [hc, if_false] at h1 ⊢
      rw [ih _ h1, List.any_cons, Bool.or_assoc]

/-- Folding leaves a string without upper-case letters unchanged. -/
theorem foldASCII_eq_self (s : GoString)
    (h : s.any (fun c => decide (0x41 ≤ c) && decide (c ≤ 0x5A)) = false) :
    foldASCII s = s := by
  induction s with
  | nil => rfl
  | cons c rest ih =>
    rw [List.any_cons, Bool.or_eq_false_iff] at h
    have hc : ¬ (0x41 ≤ c ∧ c ≤ 0x5A) := by
      intro hc
      have := h.1
      simp [hc.1, hc.2] at this
    simp only [foldASCII, List.map_cons, foldByte, if_neg hc, List.cons.injEq, true_and]
    exact ih h.2

/-- The result of `ToLower`: an ASCII string is folded byte by byte, any other string goes
through `Map`. -/
theorem ToLower_eq (s : GoString) :
    ToLower s =
      if s.all (fun c => decide (c < 0x80)) = true then foldASCII s
      else mapLoop unicodeToLower s.length s := by
  have h1 := scanASCII_fst s false
  have h2 := scanASCII_snd s false
  unfold ToLower
  rw [Map_eq]
  rcases hscan : scanASCII s false with ⟨isASCII, hasUpper⟩
  rw [hscan] at h1 h2
  simp only at h1 h2
  cases isASCII with
  | false => simp only [← h1]; simp
  | true =>
    simp only [← h1, if_true]
    cases hasUpper with
    | true => simp [lowerASCII_eq_fold]
    | false =>
      have := h2 rfl
      simp only [Bool.false_or] at this
      simp [foldASCII_eq_self s this.symm]

/-- Folding does not change which bytes are ASCII. -/
theorem all_ascii_fold (s : GoString) :
    (foldASCII s).all (fun c => decide (c < 0x80)) = s.all (fun c => decide (c < 0x80)) := by
  induction s with
  | nil => rfl
  | cons c rest ih =>
    simp only [foldASCII, List.map_cons, List.all_cons] at ih ⊢
    rw [ih]
    congr 1
    unfold foldByte
    split_ifs with h
    · have h1 : c + (0x61 - 0x41) < 0x80 := by omega
      have h2 : c < 0x80 := by omega
      simp [h1, h2]
    · rfl

/-- `ToLower` gives the same result on two strings that differ only in the case of ASCII
letters. -/
theorem ToLower_congr (a b : GoString) (h : foldASCII a = foldASCII b) :
    ToLower a = ToLower b := by
  have hall : a.all (fun c => decide (c < 0x80)) = b.all (fun c => decide (c < 0x80)) := by
    rw [← all_ascii_fold a, ← all_ascii_fold b, h]
  have hlen : a.length = b.length := by
    have := congrArg List.length h
    simpa [foldASCII] using this
  rw [ToLower_eq, ToLower_eq, hall, h, hlen, mapLoop_congr _ a b h]

/-- The rune loop of `Map` copies a string of ASCII bytes that folding leaves unchanged. -/
theorem mapLoop_stable : ∀ (e : GoString) (n : Nat),
    (∀ b ∈ e, b < 0x80 ∧ foldByte b = b) → e.length ≤ n → mapLoop unicodeToLower n e = e := by
  intro e
  induction e with
  | nil => intro n _ _; cases n <;> rfl
  | cons b rest ih =>
    intro n he hn
    cases n with
    | zero => simp at hn
    | succ n =>
      have hb := he b (List.mem_cons_self _ _)
      have hlt : b < RuneSelf := hb.1
      simp only [mapLoop, DecodeRuneInString, hb.1, if_true, unicodeToLower_ascii b hb.1, hb.2,
        hlt, List.drop_one, List.tail_cons]
      rw [ih n (fun c hc => he c (List.mem_cons_of_mem _ hc)) (by simpa using hn)]
      have : b % 256 = b := by have := hb.1; omega
      simp [this]

/-- The output of the rune loop of `Map` ends with every ASCII suffix of the input that
folding leaves unchanged. -/
theorem mapLoop_suffix (e : GoString) (he : ∀ b ∈ e, b < 0x80 ∧ foldByte b = b) :
    ∀ (n : Nat) (y : GoString), y.length + e.length ≤ n →
      e <:+ mapLoop unicodeToLower n (y ++ e) := by
  intro n
  induction n with
  | zero =>
    intro y hn
    have hy : y = [] := List.length_eq_zero.mp (by omega)
    have he0 : e = [] := List.length_eq_zero.mp (by omega)
    subst hy he0
    exact List.suffix_refl _
  | succ n ih =>
    intro y hn
    rcases y with _ | ⟨s0, y⟩
    · rw [List.nil_append, mapLoop_stable e (n + 1) he (by simpa using hn)]
    · have hw := decode_width_le s0 y e (by
        intro b hb
        exact (he b (List.mem_of_mem_head? hb)).1)
      rw [List.cons_append] at hw ⊢
      simp only [mapLoop]
      refine List.IsSuffix.trans ?_ (List.suffix_append _ _)
      have hdrop : List.drop (DecodeRuneInString (s0 :: (y ++ e))).2 (s0 :: (y ++ e)) =
          List.drop (DecodeRuneInString (s0 :: (y ++ e))).2 (s0 :: y) ++ e := by
        rw [← List.cons_append]
        exact List.drop_append_of_le_length hw.2
      rw [hdrop]
      apply ih
      simp only [List.length_drop, List.length_cons] at hn hw ⊢
      omega

/-- The result of `ToLower` ends with every ASCII suffix of its argument that folding
leaves unchanged. -/
theorem ToLower_suffix (e s : GoString) (he : ∀ b ∈ e, b < 0x80 ∧ foldByte b = b)
    (h : e <:+ s) : e <:+ ToLower s := by
  obtain ⟨y, rfl⟩ := h
  rw [ToLower_eq]
  split_ifs
  · have hfold : foldASCII e = e := by
      unfold foldASCII
      conv_rhs => rw [← List.map_id e]
      exact List.map_congr_left fun b hb => (he b hb).2
    simp only [foldASCII, List.map_append] at hfold ⊢
    rw [hfold]
    exact List.suffix_append _ _
  · exact mapLoop_suffix e he _ y (by simp)

/-- The rune loop of `Map` writes no dot when it reads none. -/
theorem mapLoop_no_dot : ∀ (n : Nat) (s : GoString), dot ∉ s →
    dot ∉ mapLoop unicodeToLower n s := by
  intro n
  induction n with
  | zero => intro s _; simp [mapLoop]
  | succ n ih =>
    intro s hs
    rcases s with _ | ⟨s0, rest⟩
    · simp [mapLoop]
    · simp only [mapLoop, List.mem_append, not_or]
      have hc : (DecodeRuneInString (s0 :: rest)).1 ≠ dot := by
        by_cases h0 : s0 < 0x80
        · simp only [DecodeRuneInString, h0, if_true]
          intro h
          exact hs (h ▸ List.mem_cons_self _ _)
        · have := decode_rune_ge s0 rest (by omega)
          unfold dot
          omega
      have hr := unicodeToLower_ne_dot _ hc
      refine ⟨?_, ih _ (fun h => hs (List.mem_of_mem_drop h))⟩
      split_ifs with hlt
      · unfold RuneSelf at hlt
        unfold dot at hr ⊢
        simp only [List.mem_singleton]
        omega
      · intro hmem
        have := AppendRune_bytes_ge _ (by unfold RuneSelf at hlt; omega) _ hmem
        unfold dot at this
        omega

/-- The result of `ToLower` holds no dot when its argument holds none. -/
theorem ToLower_no_dot (s : GoString) (hs : dot ∉ s) : dot ∉ ToLower s := by
  rw [ToLower_eq]
  split_ifs
  · intro h
    obtain ⟨b, hb, hfold⟩ := List.mem_map.mp h
    have : b = dot := by
      unfold foldByte at hfold
      unfold dot at hfold ⊢
      split_ifs at hfold <;> omega
    exact hs (this ▸ hb)
  · exact mapLoop_no_dot _ s hs

set_option maxRecDepth 100000 in
/-- Outside ASCII `ToLower` maps rune by rune: accented capitals are lowered, the Kelvin
sign U+212A becomes `k`, an ill-formed byte becomes the encoding of `RuneError`, and a
string without cased letters is returned as it is. -/
theorem ToLower_examples :
    ToLower (lit "ÀÉ.JPG") = lit "àé.jpg" ∧
      ToLower ([0xE2, 0x84, 0xAA] ++ lit ".PNG") = lit "k.png" ∧
      ToLower [0xFF, 0x2E, 0x50, 0x4E, 0x47] = [0xEF, 0xBF, 0xBD, 0x2E, 0x70, 0x6E, 0x67] ∧
      ToLower (lit "日本語.svg") = lit "日本語.svg" := by
  decide

/-! ### The two loops of the filter -/

/-- `HasSuffix` decides the suffix relation on byte sequences. -/
theorem HasSuffix_iff (s suffix : GoString) : HasSuffix s suffix = true ↔ suffix <:+ s := by
  unfold HasSuffix
  rw [Bool.and_eq_true, decide_eq_true_eq, beq_iff_eq]
  constructor
  · rintro ⟨_, h⟩
    exact List.suffix_iff_eq_drop.mpr h.symm
  · intro h
    exact ⟨h.length_le, (List.suffix_iff_eq_drop.mp h).symm⟩

/-- The MIME loop started with `false` finds exactly the members of the list. -/
theorem mimeLoop_iff (mimeType : GoString) (l : List GoString) :
    mimeLoop mimeType l false = true ↔ mimeType ∈ l := by
  induction l with
  | nil => simp [mimeLoop]
  | cons mime rest ih =>
    unfold mimeLoop
    by_cases h : mimeType = mime
    · simp [h]
    · simp [h, ih]

/-- The extension loop started with `false` finds exactly the names ending in an entry
of the list. -/
theorem extLoop_iff (lowerName : GoString) (l : List GoString) :
    extLoop lowerName l false = true ↔ ∃ ext ∈ l, ext <:+ lowerName := by
  induction l with
  | nil => simp [extLoop]
  | cons ext rest ih =>
    unfold extLoop
    by_cases h : HasSuffix lowerName ext = true
    · simp only [h, if_true, true_iff]
      exact ⟨ext, List.mem_cons_self _ _, (HasSuffix_iff _ _).mp h⟩
    · have h' : ¬ ext <:+ lowerName := fun hs => h ((HasSuffix_iff _ _).mpr hs)
      simp [h, ih, h']

/-- The filter accepts when the MIME type or the lower-cased name is allowed. -/
theorem FileWillBeUploaded_accept (p : Plugin) (c : Option Context) (info : FileInfo)
    (file : Option Reader) (output : Option Writer)
    (h : info.MimeType ∈ allowedMimeTypes ∨
      ∃ ext ∈ allowedExtensions, ext <:+ ToLower info.Name) :
    FileWillBeUploaded p c info file output = ((some info, []), (file, output)) := by
  simp only [FileWillBeUploaded]
  rcases h with h | h
  · rw [(mimeLoop_iff _ _).mpr h]; simp
  · rw [(extLoop_iff _ _).mpr h]; simp

/-- The filter rejects when neither the MIME type nor the lower-cased name is allowed. -/
theorem FileWillBeUploaded_reject (p : Plugin) (c : Option Context) (info : FileInfo)
    (file : Option Reader) (output : Option Writer)
    (hm : info.MimeType ∉ allowedMimeTypes)
    (he : ∀ ext ∈ allowedExtensions, ¬ ext <:+ ToLower info.Name) :
    FileWillBeUploaded p c info file output = ((none, rejectionMessage), (file, output)) := by
  simp only [FileWillBeUploaded]
  have h1 : mimeLoop info.MimeType allowedMimeTypes false = false := by
    rw [← Bool.not_eq_true, mimeLoop_iff]; exact hm
  have h2 : extLoop (ToLower info.Name) allowedExtensions false = false := by
    rw [← Bool.not_eq_true, extLoop_iff]
    rintro ⟨ext, hmem, hs⟩
    exact he ext hmem hs
  rw [h1, h2]; simp

/-- Every call either accepts, returning its argument and the empty message, or rejects,
returning `nil` and the rejection message; the reader and the writer are left alone. -/
theorem FileWillBeUploaded_cases (p : Plugin) (c : Option Context) (info : FileInfo)
    (file : Option Reader) (output : Option Writer) :
    FileWillBeUploaded p c info file output = ((some info, []), (file, output)) ∨
      FileWillBeUploaded p c info file output = ((none, rejectionMessage), (file, output)) := by
  simp only [FileWillBeUploaded]
  split
  · exact Or.inr rfl
  · exact Or.inl rfl

/-- The rejection message is not the empty string. -/
theorem rejectionMessage_ne_nil : rejectionMessage ≠ [] := by decide

/-- Two decompositions of a list around an element that occurs in neither tail have the
same tail. -/
theorem tail_eq_of_append_cons {a : Nat} {r l : List Nat} (hr : a ∉ r) (hl : a ∉ l) :
    ∀ (y z : List Nat), y ++ a :: r = z ++ a :: l → r = l := by
  intro y
  induction y with
  | nil =>
    intro z h
    cases z with
    | nil => simpa using h
    | cons b z' =>
      simp only [List.nil_append, List.cons_append, List.cons.injEq] at h
      exact absurd (h.2 ▸ (by simp : a ∈ z' ++ a :: l)) hr
  | cons c y' ih =>
    intro z h
    cases z with
    | nil =>
      simp only [List.nil_append, List.cons_append, List.cons.injEq] at h
      exact absurd (h.2 ▸ (by simp : a ∈ y' ++ a :: r)) hl
    | cons b z' =>
      simp only [List.cons_append, List.cons.injEq] at h
      exact ih z' h.2

/-- No allowed MIME type is a proper prefix or a proper suffix of an allowed MIME type, and
none is written in upper case. -/
theorem altered_mime_not_allowed (m : GoString) (hm : m ∈ allowedMimeTypes) :
    upperASCII m ∉ allowedMimeTypes ∧
      ∀ s : GoString, s ≠ [] → m ++ s ∉ allowedMimeTypes ∧ s ++ m ∉ allowedMimeTypes := by
  have hpre : ∀ t ∈ allowedMimeTypes, m <+: t → t = m := by
    intro t ht
    simp only [allowedMimeTypes, List.mem_cons, List.mem_singleton, List.not_mem_nil,
      or_false] at hm ht
    rcases hm with rfl | rfl | rfl <;> rcases ht with rfl | rfl | rfl <;> decide
  have hsuf : ∀ t ∈ allowedMimeTypes, m <:+ t → t = m := by
    intro t ht
    simp only [allowedMimeTypes, List.mem_cons, List.mem_singleton, List.not_mem_nil,
      or_false] at hm ht
    rcases hm with rfl | rfl | rfl <;> rcases ht with rfl | rfl | rfl <;> decide
  refine ⟨?_, fun s hs => ⟨fun h => ?_, fun h => ?_⟩⟩
  · simp only [allowedMimeTypes, List.mem_cons, List.mem_singleton, List.not_mem_nil,
      or_false] at hm
    rcases hm with rfl | rfl | rfl <;> decide
  · have := hpre _ h (List.prefix_append m s)
    exact hs (List.append_right_eq_self.mp this)
  · have := hsuf _ h (List.suffix_append s m)
    exact hs (List.append_left_eq_self.mp this)

/-- A string of the form `x ++ "." ++ l ++ t`, with no dot in `l ++ t` and `t` not empty, ends
with no allowed extension whose letters `l` are those of an allowed extension. -/
theorem no_extension_before_tail (x l t s : GoString)
    (hl : (0x2E :: l) ∈ allowedExtensions) (ht : t ≠ []) (hdot : 0x2E ∉ t)
    (hs : s = x ++ (0x2E :: l) ++ t) :
    ∀ ext ∈ allowedExtensions, ¬ ext <:+ s := by
  intro ext hext hsuf
  obtain ⟨z, hz⟩ := hsuf
  have key : ∀ l' : GoString, ext = 0x2E :: l' → 0x2E ∉ l' → 0x2E ∉ l → l ++ t = l' := by
    intro l' he hl' hl0
    subst he
    have h0 : (0x2E : Nat) ∉ l ++ t := by
      simp only [List.mem_append, not_or]; exact ⟨hl0, hdot⟩
    have : x ++ 0x2E :: (l ++ t) = z ++ 0x2E :: l' := by
      rw [hz, hs]; simp
    exact tail_eq_of_append_cons h0 hl' x z this
  have hl2 : l = lit "png" ∨ l = lit "jpg" ∨ l = lit "jpeg" ∨ l = lit "svg" := by
    have : (0x2E :: l) = lit ".png" ∨ (0x2E :: l) = lit ".jpg" ∨ (0x2E :: l) = lit ".jpeg" ∨
        (0x2E :: l) = lit ".svg" := by
      simpa [allowedExtensions] using hl
    rcases this with h | h | h | h
    · exact Or.inl (List.cons.inj h).2
    · exact Or.inr (Or.inl (List.cons.inj h).2)
    · exact Or.inr (Or.inr (Or.inl (List.cons.inj h).2))
    · exact Or.inr (Or.inr (Or.inr (List.cons.inj h).2))
  have hext2 : ext = lit ".png" ∨ ext = lit ".jpg" ∨ ext = lit ".jpeg" ∨ ext = lit ".svg" := by
    simpa [allowedExtensions] using hext
  rcases hl2 with rfl | rfl | rfl | rfl <;> rcases hext2 with rfl | rfl | rfl | rfl
  all_goals
    have h := key _ rfl (by decide) (by decide)
    revert h
    simp [lit, AppendRune, ht]

/-- A string `x ++ l`, where `l` holds the letters of an allowed extension and `x` does not
end with a dot, ends with no allowed extension. -/
theorem no_extension_without_dot (x l s : GoString)
    (hl : (0x2E :: l) ∈ allowedExtensions) (hx : ¬ [0x2E] <:+ x) (hs : s = x ++ l) :
    ∀ ext ∈ allowedExtensions, ¬ ext <:+ s := by
  intro ext hext hsuf
  have hrev : ext.reverse <+: l.reverse ++ x.reverse := by
    have := List.reverse_prefix.mpr hsuf
    rwa [hs, List.reverse_append] at this
  have hx' : ¬ [0x2E] <+: x.reverse := by
    intro h
    exact hx (by simpa using List.reverse_suffix.mpr h)
  have hl2 : (0x2E :: l) = lit ".png" ∨ (0x2E :: l) = lit ".jpg" ∨ (0x2E :: l) = lit ".jpeg" ∨
      (0x2E :: l) = lit ".svg" := by
    simpa [allowedExtensions] using hl
  have hext2 : ext = lit ".png" ∨ ext = lit ".jpg" ∨ ext = lit ".jpeg" ∨ ext = lit ".svg" := by
    simpa [allowedExtensions] using hext
  rcases hl2 with h | h | h | h <;> obtain rfl := (List.cons.inj h).2 <;>
    rcases hext2 with rfl | rfl | rfl | rfl
  all_goals
    revert hrev
    simp [lit, AppendRune, List.cons_prefix_cons]
  all_goals
    intro h
    exact hx' h

/-! ## The contract of `FileWillBeUploaded` -/

/-- C1: a file whose MIME type is exactly `image/png`, `image/jpeg` or `image/svg+xml` is
accepted whatever its name: the result is not `nil` and the message is empty. -/
theorem allowed_mime_accepted (p : Plugin) (c : Option Context) (info : FileInfo)
    (file : Option Reader) (output : Option Writer)
    (h : info.MimeType = lit "image/png" ∨ info.MimeType = lit "image/jpeg" ∨
      info.MimeType = lit "image/svg+xml") :
    (FileWillBeUploaded p c info file output).1.1 ≠ none ∧
      (FileWillBeUploaded p c info file output).1.2 = [] := by
  have hm : info.MimeType ∈ allowedMimeTypes := by
    simp only [allowedMimeTypes, List.mem_cons, List.mem_singleton]
    rcases h with h | h | h
    · exact Or.inl h
    · exact Or.inr (Or.inl h)
    · simp [h]
  rw [FileWillBeUploaded_accept p c info file output (Or.inl hm)]
  simp

/-- C1, at the empty name, an extensionless name and a name with a disallowed extension. -/
theorem allowed_mime_accepted_witness :
    ((FileWillBeUploaded zeroPlugin none (newFileInfo (lit "") (lit "image/png")) none none).1.1 ≠ none ∧
      (FileWillBeUploaded zeroPlugin none (newFileInfo (lit "") (lit "image/png")) none none).1.2 = []) ∧
    ((FileWillBeUploaded zeroPlugin none (newFileInfo (lit "README") (lit "image/jpeg")) none none).1.1
        ≠ none ∧
      (FileWillBeUploaded zeroPlugin none (newFileInfo (lit "README") (lit "image/jpeg")) none none).1.2
        = []) ∧
    ((FileWillBeUploaded zeroPlugin none (newFileInfo (lit "virus.exe") (lit "image/svg+xml")) none none).1.1
        ≠ none ∧
      (FileWillBeUploaded zeroPlugin none (newFileInfo (lit "virus.exe") (lit "image/svg+xml")) none none).1.2
        = []) :=
  ⟨allowed_mime_accepted zeroPlugin none (newFileInfo (lit "") (lit "image/png")) none none (Or.inl rfl),
   allowed_mime_accepted zeroPlugin none (newFileInfo (lit "README") (lit "image/jpeg")) none none
      (Or.inr (Or.inl rfl)),
   allowed_mime_accepted zeroPlugin none (newFileInfo (lit "virus.exe") (lit "image/svg+xml")) none none
      (Or.inr (Or.inr rfl))⟩

/-- C2: a file whose lower-cased name ends with `.png`, `.jpg`, `.jpeg` or `.svg` is
accepted whatever its MIME type: the result is not `nil` and the message is empty. -/
theorem allowed_extension_accepted (p : Plugin) (c : Option Context) (info : FileInfo)
    (file : Option Reader) (output : Option Writer)
    (h : ∃ ext ∈ [lit ".png", lit ".jpg", lit ".jpeg", lit ".svg"], ext <:+ ToLower info.Name) :
    (FileWillBeUploaded p c info file output).1.1 ≠ none ∧
      (FileWillBeUploaded p c info file output).1.2 = [] := by
  rw [FileWillBeUploaded_accept p c info file output (Or.inr h)]
  simp

/-- C2, at `test.jpg` with `image/unknown` and at `PHOTO.PNG` with
`application/octet-stream`. -/
theorem allowed_extension_accepted_witness :
    ((FileWillBeUploaded zeroPlugin none (newFileInfo (lit "test.jpg") (lit "image/unknown")) none none).1.1
        ≠ none ∧
      (FileWillBeUploaded zeroPlugin none (newFileInfo (lit "test.jpg") (lit "image/unknown")) none none).1.2
        = []) ∧
    ((FileWillBeUploaded zeroPlugin none
        (newFileInfo (lit "PHOTO.PNG") (lit "application/octet-stream")) none none).1.1 ≠ none ∧
      (FileWillBeUploaded zeroPlugin none
        (newFileInfo (lit "PHOTO.PNG") (lit "application/octet-stream")) none none).1.2 = []) :=
  ⟨allowed_extension_accepted zeroPlugin none (newFileInfo (lit "test.jpg") (lit "image/unknown")) none none
      ⟨lit ".jpg", by decide, by decide⟩,
   allowed_extension_accepted zeroPlugin none
      (newFileInfo (lit "PHOTO.PNG") (lit "application/octet-stream")) none none
      ⟨lit ".png", by decide, by decide⟩⟩

/-- C3: a file whose MIME type is none of the three allowed types and whose lower-cased
name ends with none of the four allowed extensions is rejected: the result is `nil` and the
message is the fixed text. -/
theorem disallowed_rejected (p : Plugin) (c : Option Context) (info : FileInfo)
    (file : Option Reader) (output : Option Writer)
    (hm : info.MimeType ∉ [lit "image/png", lit "image/jpeg", lit "image/svg+xml"])
    (he : ∀ ext ∈ [lit ".png", lit ".jpg", lit ".jpeg", lit ".svg"],
      ¬ ext <:+ ToLower info.Name) :
    (FileWillBeUploaded p c info file output).1 =
      (none, lit "只允許上傳 PNG, JPG, JPEG, SVG 格式的圖片檔案。") := by
  rw [FileWillBeUploaded_reject p c info file output hm he]
  rfl

/-- C3, at `test.pdf`, `test.exe` and `archive.tar.gz`. -/
theorem disallowed_rejected_witness :
    (FileWillBeUploaded zeroPlugin none (newFileInfo (lit "test.pdf") (lit "application/pdf")) none none).1
        = (none, lit "只允許上傳 PNG, JPG, JPEG, SVG 格式的圖片檔案。") ∧
      (FileWillBeUploaded zeroPlugin none
        (newFileInfo (lit "test.exe") (lit "application/x-msdownload")) none none).1
        = (none, lit "只允許上傳 PNG, JPG, JPEG, SVG 格式的圖片檔案。") ∧
      (FileWillBeUploaded zeroPlugin none
        (newFileInfo (lit "archive.tar.gz") (lit "application/gzip")) none none).1
        = (none, lit "只允許上傳 PNG, JPG, JPEG, SVG 格式的圖片檔案。") :=
  ⟨disallowed_rejected zeroPlugin none (newFileInfo (lit "test.pdf") (lit "application/pdf")) none none
      (by decide) (by decide),
   disallowed_rejected zeroPlugin none (newFileInfo (lit "test.exe") (lit "application/x-msdownload"))
      none none (by decide) (by decide),
   disallowed_rejected zeroPlugin none (newFileInfo (lit "archive.tar.gz") (lit "application/gzip"))
      none none (by decide) (by decide)⟩

/-- C4: the two results agree. The returned `FileInfo` is `nil` exactly when the message is
not empty, two rejected uploads carry the same message, and no call returns a `FileInfo`
with a non-empty message or `nil` with the empty message. -/
theorem outputs_consistent (p : Plugin) (c : Option Context)
    (info : FileInfo) (file : Option Reader) (output : Option Writer) (p' : Plugin)
    (c' : Option Context) (info' : FileInfo) (file' : Option Reader)
    (output' : Option Writer) :
    ((FileWillBeUploaded p c info file output).1.1 = none ↔
        (FileWillBeUploaded p c info file output).1.2 ≠ []) ∧
      ((FileWillBeUploaded p c info file output).1.1 = none →
        (FileWillBeUploaded p' c' info' file' output').1.1 = none →
        (FileWillBeUploaded p c info file output).1.2 =
          (FileWillBeUploaded p' c' info' file' output').1.2) ∧
      ¬ ((FileWillBeUploaded p c info file output).1.1 ≠ none ∧
        (FileWillBeUploaded p c info file output).1.2 ≠ []) ∧
      ¬ ((FileWillBeUploaded p c info file output).1.1 = none ∧
        (FileWillBeUploaded p c info file output).1.2 = []) := by
  have hne := rejectionMessage_ne_nil
  rcases FileWillBeUploaded_cases p c info file output with h | h <;>
    rcases FileWillBeUploaded_cases p' c' info' file' output' with h' | h' <;>
    simp [h, h', hne]

/-- C4, at the rejected uploads `test.pdf` and `test.exe`: both carry the same message. -/
theorem outputs_consistent_witness :
    (FileWillBeUploaded zeroPlugin none
        (newFileInfo (lit "test.pdf") (lit "application/pdf")) none none).1.2
      = (FileWillBeUploaded { zeroPlugin with backgroundJob := some 7 } none
          { newFileInfo (lit "test.exe") (lit "application/x-msdownload") with Size := 7 }
          (some ⟨lit "MZ", 0⟩) (some ⟨[]⟩)).1.2 :=
  (outputs_consistent zeroPlugin none
    (newFileInfo (lit "test.pdf") (lit "application/pdf")) none none
    { zeroPlugin with backgroundJob := some 7 } none
    { newFileInfo (lit "test.exe") (lit "application/x-msdownload") with Size := 7 }
    (some ⟨lit "MZ", 0⟩) (some ⟨[]⟩)).2.1
    rfl rfl

/-- C5: an accepted upload is returned unchanged: the result is the argument itself, with
the same name, the same MIME type and the same value in every other field. -/
theorem accepted_unchanged (p : Plugin) (c : Option Context) (info : FileInfo)
    (file : Option Reader) (output : Option Writer) (out : FileInfo)
    (h : (FileWillBeUploaded p c info file output).1.1 = some out) :
    out = info ∧ out.Name = info.Name ∧ out.MimeType = info.MimeType ∧
      (out.Id = info.Id ∧ out.CreatorId = info.CreatorId ∧ out.PostId = info.PostId ∧
        out.ChannelId = info.ChannelId ∧ out.CreateAt = info.CreateAt ∧
        out.UpdateAt = info.UpdateAt ∧ out.DeleteAt = info.DeleteAt ∧ out.Path = info.Path ∧
        out.ThumbnailPath = info.ThumbnailPath ∧ out.PreviewPath = info.PreviewPath ∧
        out.Extension = info.Extension ∧ out.Size = info.Size ∧ out.Width = info.Width ∧
        out.Height = info.Height ∧ out.HasPreviewImage = info.HasPreviewImage ∧
        out.MiniPreview = info.MiniPreview ∧ out.Content = info.Content ∧
        out.RemoteId = info.RemoteId ∧ out.Archived = info.Archived) := by
  have hout : out = info := by
    rcases FileWillBeUploaded_cases p c info file output with h' | h'
    · rw [h'] at h
      exact (Option.some.inj h).symm
    · rw [h'] at h
      cases h
  subst hout
  simp

/-- C5, at the accepted upload `test.png` of size 42: the result is the argument, and its
size is 42. -/
theorem accepted_unchanged_witness :
    (FileWillBeUploaded zeroPlugin none
        { newFileInfo (lit "test.png") (lit "image/png") with Size := 42 } none none).1.1
        = some { newFileInfo (lit "test.png") (lit "image/png") with Size := 42 } ∧
      ({ newFileInfo (lit "test.png") (lit "image/png") with Size := 42 } : FileInfo).Size
        = 42 :=
  ⟨rfl,
   (accepted_unchanged zeroPlugin none
      { newFileInfo (lit "test.png") (lit "image/png") with Size := 42 } none none
      { newFileInfo (lit "test.png") (lit "image/png") with Size := 42 } rfl).2.2.2.2.2.2.2.2.2.2.2.2.2.2.1⟩

/-- C6: the decision depends on the name and the MIME type alone. Two calls whose `FileInfo`
agree on `Name` and `MimeType` accept or reject together and return the same message,
whatever the other fields of the two records, the receivers, the contexts, the bytes and
positions of the readers and the contents of the writers.  After a call the reader has
consumed no byte and the writer has received none: both are in the state in which they
were passed.  Calling the filter a second time on the same candidate, with the reader
and the writer left by the first call, gives the result of the first call. -/
theorem decision_depends_on_name_and_mime (p : Plugin) (c : Option Context)
    (info : FileInfo) (file : Option Reader) (output : Option Writer) (p' : Plugin)
    (c' : Option Context) (info' : FileInfo) (file' : Option Reader)
    (output' : Option Writer)
    (hName : info.Name = info'.Name) (hMime : info.MimeType = info'.MimeType) :
    ((FileWillBeUploaded p c info file output).1.1.isSome =
        (FileWillBeUploaded p' c' info' file' output').1.1.isSome) ∧
      (FileWillBeUploaded p c info file output).1.2 =
        (FileWillBeUploaded p' c' info' file' output').1.2 ∧
      (FileWillBeUploaded p c info file output).2 = (file, output) ∧
      (FileWillBeUploaded p' c' info' file' output').2 = (file', output') ∧
      FileWillBeUploaded p c info (FileWillBeUploaded p c info file output).2.1
          (FileWillBeUploaded p c info file output).2.2 =
        FileWillBeUploaded p c info file output := by
  simp only [FileWillBeUploaded, hName, hMime]
  split <;> simp

/-- C6, at two uploads named `photo.png` of MIME type `text/plain`: one as the tests make
it, the other with another size and creator, an activated receiver, a context, a reader
in the middle of a PDF header and a writer that already holds bytes. -/
theorem decision_depends_on_name_and_mime_witness :
    ((FileWillBeUploaded zeroPlugin none
          (newFileInfo (lit "photo.png") (lit "text/plain")) none none).1.1.isSome
        = (FileWillBeUploaded { zeroPlugin with API := some 1, backgroundJob := some 2 }
            (some ⟨lit "s1", lit "r1", lit "10.0.0.1", lit "en", lit "curl"⟩)
            { newFileInfo (lit "photo.png") (lit "text/plain") with
              Size := 2048, CreatorId := lit "u1", Archived := true }
            (some ⟨lit "%PDF-1.7", 3⟩) (some ⟨lit "x"⟩)).1.1.isSome) ∧
      (FileWillBeUploaded { zeroPlugin with API := some 1, backgroundJob := some 2 }
          (some ⟨lit "s1", lit "r1", lit "10.0.0.1", lit "en", lit "curl"⟩)
          { newFileInfo (lit "photo.png") (lit "text/plain") with
            Size := 2048, CreatorId := lit "u1", Archived := true }
          (some ⟨lit "%PDF-1.7", 3⟩) (some ⟨lit "x"⟩)).2
        = (some ⟨lit "%PDF-1.7", 3⟩, some ⟨lit "x"⟩) :=
  ⟨(decision_depends_on_name_and_mime zeroPlugin none
      (newFileInfo (lit "photo.png") (lit "text/plain")) none none
      { zeroPlugin with API := some 1, backgroundJob := some 2 }
      (some ⟨lit "s1", lit "r1", lit "10.0.0.1", lit "en", lit "curl"⟩)
      { newFileInfo (lit "photo.png") (lit "text/plain") with
        Size := 2048, CreatorId := lit "u1", Archived := true }
      (some ⟨lit "%PDF-1.7", 3⟩) (some ⟨lit "x"⟩) rfl rfl).1,
   (decision_depends_on_name_and_mime zeroPlugin none
      (newFileInfo (lit "photo.png") (lit "text/plain")) none none
      { zeroPlugin with API := some 1, backgroundJob := some 2 }
      (some ⟨lit "s1", lit "r1", lit "10.0.0.1", lit "en", lit "curl"⟩)
      { newFileInfo (lit "photo.png") (lit "text/plain") with
        Size := 2048, CreatorId := lit "u1", Archived := true }
      (some ⟨lit "%PDF-1.7", 3⟩) (some ⟨lit "x"⟩) rfl rfl).2.2.2.1⟩

/-- C7: extension matching ignores the case of ASCII letters. Two uploads with the same
MIME type whose names differ only in the case of ASCII letters are accepted or rejected
together, with the same message; and every such variant of a name that ends with `.png`,
`.jpg`, `.jpeg` or `.svg` is accepted. -/
theorem extension_match_ignores_case (p : Plugin) (c : Option Context)
    (info : FileInfo) (file : Option Reader) (output : Option Writer) (p' : Plugin)
    (c' : Option Context) (info' : FileInfo) (file' : Option Reader)
    (output' : Option Writer)
    (hName : foldASCII info.Name = foldASCII info'.Name) :
    (info.MimeType = info'.MimeType →
        (FileWillBeUploaded p c info file output).1.1.isSome =
            (FileWillBeUploaded p' c' info' file' output').1.1.isSome ∧
          (FileWillBeUploaded p c info file output).1.2 =
            (FileWillBeUploaded p' c' info' file' output').1.2) ∧
      ((∃ ext ∈ [lit ".png", lit ".jpg", lit ".jpeg", lit ".svg"], ext <:+ info'.Name) →
        (FileWillBeUploaded p c info file output).1 = (some info, [])) := by
  have hlow : ToLower info.Name = ToLower info'.Name := ToLower_congr _ _ hName
  constructor
  · intro hMime
    simp only [FileWillBeUploaded, hlow, hMime]
    split <;> simp
  · rintro ⟨ext, hext, hsuf⟩
    have hstable : ∀ b ∈ ext, b < 0x80 ∧ foldByte b = b := by
      simp only [List.mem_cons, List.mem_singleton, List.not_mem_nil, or_false] at hext
      rcases hext with rfl | rfl | rfl | rfl <;> decide
    have h := ToLower_suffix ext info'.Name hstable hsuf
    rw [← hlow] at h
    rw [FileWillBeUploaded_accept p c info file output (Or.inr ⟨ext, hext, h⟩)]

/-- C7, at `Photo.PnG` and `PHOTO.PNG` with the MIME type `application/octet-stream`. -/
theorem extension_match_ignores_case_witness :
    ((FileWillBeUploaded zeroPlugin none
          (newFileInfo (lit "Photo.PnG") (lit "application/octet-stream")) none none).1.1.isSome
        = (FileWillBeUploaded zeroPlugin none
          (newFileInfo (lit "PHOTO.PNG") (lit "application/octet-stream")) none none).1.1.isSome ∧
      (FileWillBeUploaded zeroPlugin none
          (newFileInfo (lit "Photo.PnG") (lit "application/octet-stream")) none none).1.2
        = (FileWillBeUploaded zeroPlugin none
          (newFileInfo (lit "PHOTO.PNG") (lit "application/octet-stream")) none none).1.2) ∧
    (FileWillBeUploaded zeroPlugin none
        (newFileInfo (lit "PHOTO.PNG") (lit "application/octet-stream")) none none).1
      = (some (newFileInfo (lit "PHOTO.PNG") (lit "application/octet-stream")), []) :=
  ⟨(extension_match_ignores_case zeroPlugin none
      (newFileInfo (lit "Photo.PnG") (lit "application/octet-stream")) none none zeroPlugin none
      (newFileInfo (lit "PHOTO.PNG") (lit "application/octet-stream")) none none
      (by decide)).1 rfl,
   (extension_match_ignores_case zeroPlugin none
      (newFileInfo (lit "PHOTO.PNG") (lit "application/octet-stream")) none none zeroPlugin none
      (newFileInfo (lit "photo.png") (lit "application/octet-stream")) none none
      (by decide)).2 ⟨lit ".png", by decide, by decide⟩⟩

/-- C8: MIME matching is exact. When the lower-cased name ends with no allowed extension and
the MIME type is an allowed type `m` written in upper case, or `m` followed or preceded by
a non-empty string, the MIME type is not an allowed type and the upload is rejected with
the fixed message. -/
theorem mime_match_exact (p : Plugin) (c : Option Context) (info : FileInfo)
    (file : Option Reader) (output : Option Writer) (m : GoString)
    (hm : m ∈ [lit "image/png", lit "image/jpeg", lit "image/svg+xml"])
    (he : ∀ ext ∈ [lit ".png", lit ".jpg", lit ".jpeg", lit ".svg"],
      ¬ ext <:+ ToLower info.Name)
    (halt : info.MimeType = upperASCII m ∨
      ∃ s : GoString, s ≠ [] ∧ (info.MimeType = m ++ s ∨ info.MimeType = s ++ m)) :
    info.MimeType ∉ [lit "image/png", lit "image/jpeg", lit "image/svg+xml"] ∧
      (FileWillBeUploaded p c info file output).1 =
        (none, lit "只允許上傳 PNG, JPG, JPEG, SVG 格式的圖片檔案。") := by
  have hnot : info.MimeType ∉ allowedMimeTypes := by
    rcases halt with h | ⟨s, hs, h | h⟩
    · rw [h]; exact (altered_mime_not_allowed m hm).1
    · rw [h]; exact ((altered_mime_not_allowed m hm).2 s hs).1
    · rw [h]; exact ((altered_mime_not_allowed m hm).2 s hs).2
  refine ⟨hnot, ?_⟩
  rw [FileWillBeUploaded_reject p c info file output hnot he]
  rfl

/-- C8, at `IMAGE/PNG`, `image/png; charset=utf-8` and ` image/png` for the file
`notes.txt`. -/
theorem mime_match_exact_witness :
    (FileWillBeUploaded zeroPlugin none (newFileInfo (lit "notes.txt") (lit "IMAGE/PNG")) none none).1
        = (none, lit "只允許上傳 PNG, JPG, JPEG, SVG 格式的圖片檔案。") ∧
      (FileWillBeUploaded zeroPlugin none
        (newFileInfo (lit "notes.txt") (lit "image/png; charset=utf-8")) none none).1
        = (none, lit "只允許上傳 PNG, JPG, JPEG, SVG 格式的圖片檔案。") ∧
      (FileWillBeUploaded zeroPlugin none (newFileInfo (lit "notes.txt") (lit " image/png")) none none).1
        = (none, lit "只允許上傳 PNG, JPG, JPEG, SVG 格式的圖片檔案。") :=
  ⟨(mime_match_exact zeroPlugin none (newFileInfo (lit "notes.txt") (lit "IMAGE/PNG")) none none
      (lit "image/png") (by decide) (by decide) (Or.inl (by decide))).2,
   (mime_match_exact zeroPlugin none (newFileInfo (lit "notes.txt") (lit "image/png; charset=utf-8"))
      none none (lit "image/png") (by decide) (by decide)
      (Or.inr ⟨lit "; charset=utf-8", by decide, Or.inl (by decide)⟩)).2,
   (mime_match_exact zeroPlugin none (newFileInfo (lit "notes.txt") (lit " image/png")) none none
      (lit "image/png") (by decide) (by decide)
      (Or.inr ⟨lit " ", by decide, Or.inr (by decide)⟩)).2⟩

/-- C9: an extension counts only at the very end of the name. When the MIME type is not
allowed, an upload is rejected if its lower-cased name is `x ++ ext ++ t` for an allowed
extension `ext` and a non-empty `t` without a dot, and also if its lower-cased name is
`x ++ l`, where `l` is an allowed extension without its dot and `x` does not end with a
dot. -/
theorem extension_must_be_trailing (p : Plugin) (c : Option Context) (info : FileInfo)
    (file : Option Reader) (output : Option Writer)
    (hm : info.MimeType ∉ [lit "image/png", lit "image/jpeg", lit "image/svg+xml"])
    (x ext : GoString) (hext : ext ∈ [lit ".png", lit ".jpg", lit ".jpeg", lit ".svg"])
    (h : (∃ t : GoString, t ≠ [] ∧ dot ∉ t ∧
          ToLower info.Name = x ++ ext ++ t) ∨
        (¬ lit "." <:+ x ∧ ToLower info.Name = x ++ ext.drop 1)) :
    (FileWillBeUploaded p c info file output).1 =
      (none, lit "只允許上傳 PNG, JPG, JPEG, SVG 格式的圖片檔案。") := by
  have hdotted : ∃ l, ext = 0x2E :: l := by
    simp only [List.mem_cons, List.mem_singleton, List.not_mem_nil, or_false] at hext
    rcases hext with rfl | rfl | rfl | rfl <;> exact ⟨_, rfl⟩
  obtain ⟨l, rfl⟩ := hdotted
  have he : ∀ e ∈ allowedExtensions, ¬ e <:+ ToLower info.Name := by
    rcases h with ⟨t, ht, hdot, hs⟩ | ⟨hx, hs⟩
    · exact no_extension_before_tail x l t _ hext ht hdot hs
    · exact no_extension_without_dot x l _ hext hx hs
  rw [FileWillBeUploaded_reject p c info file output hm he]
  rfl

/-- C9, at `fake.svgmalicious` and `evilpng` with the MIME type
`application/octet-stream`. -/
theorem extension_must_be_trailing_witness :
    (FileWillBeUploaded zeroPlugin none
        (newFileInfo (lit "fake.svgmalicious") (lit "application/octet-stream")) none none).1
        = (none, lit "只允許上傳 PNG, JPG, JPEG, SVG 格式的圖片檔案。") ∧
      (FileWillBeUploaded zeroPlugin none
        (newFileInfo (lit "evilpng") (lit "application/octet-stream")) none none).1
        = (none, lit "只允許上傳 PNG, JPG, JPEG, SVG 格式的圖片檔案。") :=
  ⟨extension_must_be_trailing zeroPlugin none
      (newFileInfo (lit "fake.svgmalicious") (lit "application/octet-stream")) none none
      (by decide) (lit "fake") (lit ".svg") (by decide)
      (Or.inl ⟨lit "malicious", by decide, by decide, by decide⟩),
   extension_must_be_trailing zeroPlugin none
      (newFileInfo (lit "evilpng") (lit "application/octet-stream")) none none
      (by decide) (lit "evil") (lit ".png") (by decide)
      (Or.inr ⟨by decide, by decide⟩)⟩

/-- C10: missing metadata is an ordinary rejection. An upload whose name holds no dot (the
empty name included) and whose MIME type is none of the three allowed types (the empty
type included) is rejected: the result is `nil` and the message is the fixed text. -/
theorem extensionless_rejected (p : Plugin) (c : Option Context) (info : FileInfo)
    (file : Option Reader) (output : Option Writer)
    (hName : dot ∉ info.Name)
    (hMime : info.MimeType ∉ [lit "image/png", lit "image/jpeg", lit "image/svg+xml"]) :
    (FileWillBeUploaded p c info file output).1 =
      (none, lit "只允許上傳 PNG, JPG, JPEG, SVG 格式的圖片檔案。") := by
  have hlow := ToLower_no_dot info.Name hName
  have he : ∀ ext ∈ allowedExtensions, ¬ ext <:+ ToLower info.Name := by
    intro ext hext hsuf
    have hdot : dot ∈ ext := by
      simp only [allowedExtensions, List.mem_cons, List.mem_singleton, List.not_mem_nil,
        or_false] at hext
      rcases hext with rfl | rfl | rfl | rfl <;> decide
    exact hlow (hsuf.subset hdot)
  rw [FileWillBeUploaded_reject p c info file output hMime he]
  rfl

/-- C10, at the empty name with the empty MIME type. -/
theorem extensionless_rejected_witness :
    (FileWillBeUploaded zeroPlugin none (newFileInfo (lit "") (lit "")) none none).1 =
      (none, lit "只允許上傳 PNG, JPG, JPEG, SVG 格式的圖片檔案。") :=
  extensionless_rejected zeroPlugin none (newFileInfo (lit "") (lit "")) none none (by decide) (by decide)

end MattermostPlugin
